import Mathlib

set_option linter.unusedVariables false
set_option linter.unreachableTactic false
set_option linter.unusedTactic false
set_option linter.unnecessarySeqFocus false

namespace ValtioPersist

/-- Model of a JavaScript runtime value as manipulated by this library.
Numbers are modelled as integers (the states the plugin handles are JSON-like
trees; floating-point questions are outside every claim).  `varr` carries the
array's elements together with its non-index own enumerable ("expando") string
properties; `vdate` carries the milliseconds-since-epoch timestamp.  Property
access is modelled as own enumerable data-property lookup: prototype-inherited
members and primitive-wrapper properties (such as string indices) are outside
the state model. -/
inductive Value where
  | vnull
  | vundef
  | vbool (b : Bool)
  | vnum (n : Int)
  | vstr (s : String)
  | vsym (d : Option String)
  | vfun (name : String)
  | vdate (t : Int)
  | vmap (entries : List (Value × Value))
  | vset (elems : List Value)
  | verr (message name : String) (stack : Option String)
  | varr (elems : List Value) (props : List (String × Value))
  | vobj (fields : List (String × Value))
  | vclass (cname : String) (fields : List (String × Value))

end ValtioPersist

namespace ValtioPersist

open Value

/-! ## Basic own-property access

`lookupField` models JavaScript own-property lookup in an ordered record
(`Object.entries` order).  `setKey` models property assignment `o[k] = v`:
an existing key keeps its position, a new key is appended. -/

def lookupField : List (String × Value) → String → Option Value
  | [], _ => none
  | (k, v) :: rest, key => if k = key then some v else lookupField rest key

def setKey : List (String × Value) → String → Value → List (String × Value)
  | [], key, val => [(key, val)]
  | (k, v) :: rest, key, val =>
      if k = key then (k, val) :: rest else (k, v) :: setKey rest key val

/-- A string that is a canonical array index ("0", "17", but not "07", "x"). -/
def toIndex (s : String) : Option Nat :=
  match s.toNat? with
  | some n => if Nat.repr n = s then some n else none
  | none => none

/-- `typeof v === "object" && v !== null` (functions and symbols are not
`"object"`; `null` is excluded here because the library always pairs the
typeof test with a null test). -/
def isObjType : Value → Bool
  | vdate _ => true
  | vmap _ => true
  | vset _ => true
  | verr _ _ _ => true
  | varr _ _ => true
  | vobj _ => true
  | vclass _ _ => true
  | _ => false

/-- Property read `v[key]`, modelled as own enumerable data-property lookup:
object fields, array elements at canonical in-bounds indices and array
expando properties.  Reads on primitives, dates, maps, sets and errors give
`undefined` (their own enumerable property set is empty; prototype members
and primitive-wrapper properties are outside the state model). -/
def getProp : Value → String → Value
  | vobj fields, key => (lookupField fields key).getD vundef
  | vclass _ fields, key => (lookupField fields key).getD vundef
  | varr elems props, key =>
      match toIndex key with
      | some i => List.getD elems i vundef
      | none => (lookupField props key).getD vundef
  | _, _ => vundef

/-- Property write `v[key] = val` (functional).  Writes to values that are
not objects or arrays are dropped: the library never performs them (it always
replaces a non-object before writing into it), and JavaScript expandos on
dates etc. are outside the state model.  An out-of-bounds index write pads
with `undefined` the way JavaScript extends an array. -/
def setProp : Value → String → Value → Value
  | vobj fields, key, val => vobj (setKey fields key val)
  | varr elems props, key, val =>
      match toIndex key with
      | some i =>
          if i < elems.length then varr (elems.set i val) props
          else varr (elems ++ List.replicate (i - elems.length) vundef ++ [val]) props
      | none => varr elems (setKey props key val)
  | v, _, _ => v

/-! ## Path utilities (src/utils: getByPath, setByPath, pickPaths,
pathMatchesAny) -/

/-- `getByPath(obj, path)`: walk `path` from `obj`; `undefined` as soon as an
intermediate is null/undefined. -/
def getByPath : Value → List String → Value
  | v, [] => v
  | vnull, _ :: _ => vundef
  | vundef, _ :: _ => vundef
  | v, key :: rest => getByPath (getProp v key) rest

/-- `setByPath(obj, path, value)` as a functional rewrite of the source's
iterative walk: no-op on the empty path; on the last segment assign; on an
intermediate segment, keep the existing child when it is object-typed
(`typeof ... === "object"` and non-null), otherwise replace it by `{}`,
then recurse. -/
def setByPath : Value → List String → Value → Value
  | v, [], _ => v
  | v, [key], val => setProp v key val
  | v, key :: rest, val =>
      let child := getProp v key
      let child' := if isObjType child then child else vobj []
      setProp v key (setByPath child' rest val)

/-- `v !== undefined`. -/
def isUndef : Value → Bool
  | vundef => true
  | _ => false

/-- One step of `pickPaths`: resolve a dotted path in `src` and, when the
value is defined, write it into the accumulated result. -/
def pickStep (src : Value) (res : Value) (pathStr : String) : Value :=
  let parts := pathStr.splitOn "."
  let v := getByPath src parts
  if isUndef v then res else setByPath res parts v

/-- `pickPaths(obj, paths)`: project the values at the given dotted paths
into a fresh object. -/
def pickPaths (src : Value) (paths : List String) : Value :=
  paths.foldl (pickStep src) (vobj [])

/-- Model of JavaScript `String.prototype.startsWith`: character-list
prefix test. -/
def listIsPfx : List Char → List Char → Bool
  | [], _ => true
  | _ :: _, [] => false
  | a :: as, b :: bs => a = b && listIsPfx as bs

def strStartsWith (s pre : String) : Bool :=
  listIsPfx pre.data s.data

/-- `pathMatchesAny(changePath, filterPaths)` from src/utils. -/
def pathMatchesAny (changePath : List String) (filterPaths : List String) : Bool :=
  if filterPaths.length = 0 then true
  else
    let changePathStr := String.intercalate "." changePath
    filterPaths.any fun filterPath =>
      if changePathStr = filterPath || strStartsWith changePathStr (filterPath ++ ".") then
        true
      else if strStartsWith filterPath (changePathStr ++ ".") then true
      else false

end ValtioPersist

namespace ValtioPersist

open Value

/-! ## Special-type codec (src/serialization/json.ts)

The timestamp↔string conversion used by `Date` serialization is modelled by
a canonical signed-decimal rendering of the milliseconds-since-epoch value:
the actual ISO-8601 layout is abstracted away, keeping exactly the property
the codec relies on, namely that `new Date(d.toISOString())` recovers the
timestamp. -/

def digitChars (n : Nat) : List Char :=
  (Nat.digits 10 n).reverse.map fun d => Char.ofNat (d + 48)

/-- Model of `Date.prototype.toISOString` (canonical injective rendering). -/
def dateToISOString (t : Int) : String :=
  if t < 0 then ⟨'-' :: digitChars t.natAbs⟩ else ⟨digitChars t.natAbs⟩

def charsToNat (cs : List Char) : Nat :=
  Nat.ofDigits 10 ((cs.map fun c => c.toNat - 48).reverse)

/-- Model of `new Date(string)` applied to a rendered timestamp. -/
def dateFromString (s : String) : Int :=
  match s.data with
  | '-' :: cs => -(charsToNat cs : Int)
  | cs => (charsToNat cs : Int)

/-- The closed set of special-type markers (TYPE_MARKER in src/types.ts). -/
def typeMarkers : List String :=
  ["__DATE__", "__MAP__", "__SET__", "__SYMBOL__", "__FUNCTION__",
   "__CLASS__", "__ERROR__", "__DOM_ELEMENT__"]

/-- JavaScript values compared by value under SameValueZero; symbols are
identity-keyed and therefore behave like objects here. -/
def isJsPrim : Value → Bool
  | vnull => true
  | vundef => true
  | vbool _ => true
  | vnum _ => true
  | vstr _ => true
  | _ => false

/-- SameValueZero restricted to the primitive values above; every other
value (freshly constructed during decoding) is reference-distinct. -/
def primKeyEq : Value → Value → Bool
  | vnull, vnull => true
  | vundef, vundef => true
  | vbool a, vbool b => a = b
  | vnum a, vnum b => a = b
  | vstr a, vstr b => a = b
  | _, _ => false

def mapHasKey : List (Value × Value) → Value → Bool
  | [], _ => false
  | (k, _) :: rest, key => primKeyEq k key || mapHasKey rest key

def mapSetEntry : List (Value × Value) → Value → Value → List (Value × Value)
  | [], key, val => [(key, val)]
  | (k, v) :: rest, key, val =>
      if primKeyEq k key then (k, val) :: rest
      else (k, v) :: mapSetEntry rest key val

/-- `new Map(pairs)`: insert the pairs in order (`Map.prototype.set`
semantics: an existing SameValueZero-equal key keeps its position and gets
the new value). -/
def mkMap (pairs : List (Value × Value)) : List (Value × Value) :=
  pairs.foldl (fun acc kv => mapSetEntry acc kv.1 kv.2) []

def setHasElem : List Value → Value → Bool
  | [], _ => false
  | e :: rest, x => primKeyEq e x || setHasElem rest x

/-- `new Set(elems)`: adding an already-present value is a no-op. -/
def mkSet (elems : List Value) : List Value :=
  elems.foldl (fun acc e => if setHasElem acc e then acc else acc ++ [e]) []

theorem sizeOf_lookupField {fields : List (String × Value)} {k : String}
    {v : Value} (h : lookupField fields k = some v) : sizeOf v < sizeOf fields := by
  induction fields with
  | nil => simp [lookupField] at h
  | cons hd tl ih =>
      obtain ⟨k0, v0⟩ := hd
      simp only [lookupField] at h
      split at h
      · cases h
        simp only [List.cons.sizeOf_spec, Prod.mk.sizeOf_spec]
        omega
      · have := ih h
        simp only [List.cons.sizeOf_spec]
        omega

theorem sizeOf_getProp_vobj (fields : List (String × Value)) (key : String) :
    sizeOf (getProp (vobj fields) key) < sizeOf (vobj fields) := by
  simp only [getProp, Value.vobj.sizeOf_spec]
  rcases h : lookupField fields key with _ | v
  · cases fields <;> simp
  · have := sizeOf_lookupField h
    simp only [Option.getD_some]
    omega

theorem sizeOf_getElemD_lt (l : List Value) (i : Nat) :
    sizeOf (l[i]?.getD vundef) < 1 + sizeOf l := by
  rcases h : l[i]? with _ | v
  · cases l <;> simp
  · have hm : v ∈ l := List.getElem?_mem h
    have := List.sizeOf_lt_of_mem hm
    simp
    omega

theorem sizeOf_getD_lt (l : List Value) (i : Nat) :
    sizeOf (List.getD l i vundef) < 1 + sizeOf l := by
  rw [List.getD_eq_getElem?_getD]
  exact sizeOf_getElemD_lt l i

theorem sizeOf_getProp_varr (elems : List Value) (props : List (String × Value))
    (key : String) :
    sizeOf (getProp (varr elems props) key) < sizeOf (varr elems props) := by
  have he : 1 ≤ sizeOf elems := by
    cases elems
    · simp
    · simp
      omega
  simp only [getProp, Value.varr.sizeOf_spec]
  rcases h : toIndex key with _ | i
  · simp only [h]
    rcases h2 : lookupField props key with _ | v
    · simp
      omega
    · have := sizeOf_lookupField h2
      simp only [Option.getD_some]
      omega
  · simp only [h]
    have := sizeOf_getD_lt elems i
    omega

theorem sizeOf_getProp_vclass (cn : String) (fields : List (String × Value))
    (key : String) :
    sizeOf (getProp (vclass cn fields) key) < sizeOf (vclass cn fields) := by
  simp only [getProp, Value.vclass.sizeOf_spec]
  rcases h : lookupField fields key with _ | v
  · cases fields <;> simp <;> omega
  · have := sizeOf_lookupField h
    simp only [Option.getD_some]
    omega

mutual

/-- `processForSerialization` from src/serialization/json.ts.  The
environment is modelled as non-browser (`typeof window === "undefined"`),
so the DOM-element arm never fires.  The `__CLASS__` arm's
`processForSerialization({ ...obj })` is the key-wise encoding of the
instance's own enumerable fields. -/
def processForSerialization : Value → Value
  | vnull => vnull
  | vundef => vundef
  | vbool b => vbool b
  | vnum n => vnum n
  | vstr s => vstr s
  | vsym d =>
      vobj [("__type", vstr "__SYMBOL__"),
            ("value", match d with | some s => vstr s | none => vundef)]
  | vfun name =>
      vobj [("__type", vstr "__FUNCTION__"),
            ("value", vstr (if name = "" then "anonymous" else name))]
  | vdate t =>
      vobj [("__type", vstr "__DATE__"), ("value", vstr (dateToISOString t))]
  | vmap entries =>
      vobj [("__type", vstr "__MAP__"), ("value", varr (serializeEntries entries) [])]
  | vset elems =>
      vobj [("__type", vstr "__SET__"), ("value", varr (serializeElems elems) [])]
  | verr msg nm st =>
      vobj [("__type", vstr "__ERROR__"),
            ("value", vobj [("message", vstr msg), ("name", vstr nm),
                            ("stack", match st with | some s => vstr s | none => vundef)])]
  | varr elems _props => varr (serializeElems elems) []
  | vclass cname fields =>
      vobj [("__type", vstr "__CLASS__"), ("className", vstr cname),
            ("value", vobj (serializeFields fields))]
  | vobj fields => vobj (serializeFields fields)

def serializeElems : List Value → List Value
  | [] => []
  | v :: rest => processForSerialization v :: serializeElems rest

def serializeEntries : List (Value × Value) → List Value
  | [] => []
  | (k, v) :: rest =>
      varr [processForSerialization k, processForSerialization v] []
        :: serializeEntries rest

def serializeFields : List (String × Value) → List (String × Value)
  | [] => []
  | (k, v) :: rest => (k, processForSerialization v) :: serializeFields rest

end

end ValtioPersist

namespace ValtioPersist

open Value

mutual

/-- `processForDeserialization` from src/serialization/json.ts, with a thrown
exception modelled as `none`.  Dispatch follows the source order: null and
undefined pass through, non-objects pass through, then an own string-valued
`__type` property selects a marker arm, then arrays decode element-wise and
remaining objects decode entry-wise (`Object.entries`; a date/map/set/error
instance has no own enumerable entries, a class instance contributes its
fields). -/
def processForDeserialization : Value → Option Value
  | vnull => some vnull
  | vundef => some vundef
  | vbool b => some (vbool b)
  | vnum n => some (vnum n)
  | vstr s => some (vstr s)
  | vsym d => some (vsym d)
  | vfun name => some (vfun name)
  | vdate _ => some (vobj [])
  | vmap _ => some (vobj [])
  | vset _ => some (vobj [])
  | verr _ _ _ => some (vobj [])
  | varr elems props =>
      match lookupField props "__type" with
      | some (vstr marker) => decodeMarked marker (getProp (varr elems props) "value")
      | _ => do pure (varr (← deserializeElems elems) [])
  | vobj fields =>
      match lookupField fields "__type" with
      | some (vstr marker) => decodeMarked marker (getProp (vobj fields) "value")
      | _ => do pure (vobj (← deserializeFields fields))
  | vclass cn fields =>
      match lookupField fields "__type" with
      | some (vstr marker) => decodeMarked marker (getProp (vclass cn fields) "value")
      | _ => do pure (vobj (← deserializeFields fields))
termination_by v => (sizeOf v, 0)
decreasing_by
  all_goals simp_wf
  all_goals first
    | (have h1 := sizeOf_getProp_varr elems props "value"
       simp only [Value.varr.sizeOf_spec] at h1
       omega)
    | (have h1 := sizeOf_getProp_vobj fields "value"
       simp only [Value.vobj.sizeOf_spec] at h1
       omega)
    | (have h1 := sizeOf_getProp_vclass cn fields "value"
       simp only [Value.vclass.sizeOf_spec] at h1
       omega)
    | omega

/-- The marker `switch` of `processForDeserialization`, applied to
`record.value`.  A `break` out of the switch reaches the trailing
`return null`. -/
def decodeMarked : String → Value → Option Value
  | "__DATE__", val =>
      match val with
      | vstr s => some (vdate (dateFromString s))
      | _ => some vnull
  | "__MAP__", val =>
      match val with
      | varr elems _ => do pure (vmap (mkMap (← deserializeMapElems elems)))
      | _ => some vnull
  | "__SET__", val =>
      match val with
      | varr elems _ => do pure (vset (mkSet (← deserializeElems elems)))
      | _ => some vnull
  | "__SYMBOL__", val =>
      match val with
      | vstr s => some (vsym (some s))
      | vundef => some (vsym none)
      | _ => some vnull
  | "__FUNCTION__", _ => some (vfun "")
  | "__ERROR__", val =>
      if isObjType val then
        some (verr
          (match getProp val "message" with | vstr m => m | _ => "Unknown error")
          (match getProp val "name" with | vstr n => n | _ => "Error")
          (match getProp val "stack" with | vstr st => some st | _ => none))
      else some vnull
  | "__DOM_ELEMENT__", _ => some vnull
  | "__CLASS__", val =>
      if isObjType val then processForDeserialization val else some vnull
  | _, val => some val
termination_by m val => (sizeOf val, 1)
decreasing_by
  all_goals simp_wf
  all_goals omega

def deserializeElems : List Value → Option (List Value)
  | [] => some []
  | v :: rest => do pure ((← processForDeserialization v) :: (← deserializeElems rest))
termination_by l => (sizeOf l, 0)
decreasing_by
  all_goals simp_wf
  all_goals omega

/-- Element-wise treatment of a `__MAP__` payload:
`([k, v]) => [decode k, decode v]`.  Parameter destructuring of an array
element takes its first two items (missing ones are `undefined`); a string
element destructures into its first two characters (for which decoding is
the identity, fused here); any non-iterable element is a TypeError, modelled
as `none`.  (Destructuring live collection objects is outside the model and
also mapped to `none`.) -/
def deserializeMapElems : List Value → Option (List (Value × Value))
  | [] => some []
  | varr l _ :: rest => do
      let k ← processForDeserialization (List.getD l 0 vundef)
      let v ← processForDeserialization (List.getD l 1 vundef)
      pure ((k, v) :: (← deserializeMapElems rest))
  | vstr s :: rest => do
      let first := match s.data.get? 0 with
        | some c => vstr (String.mk [c])
        | none => vundef
      let second := match s.data.get? 1 with
        | some c => vstr (String.mk [c])
        | none => vundef
      pure ((first, second) :: (← deserializeMapElems rest))
  | _ :: _ => none
termination_by l => (sizeOf l, 0)
decreasing_by
  all_goals simp_wf
  all_goals first
    | (have h0 := sizeOf_getElemD_lt l 0
       have h1 := sizeOf_getElemD_lt l 1
       omega)
    | omega

def deserializeFields : List (String × Value) → Option (List (String × Value))
  | [] => some []
  | (k, v) :: rest => do
      pure ((k, ← processForDeserialization v) :: (← deserializeFields rest))
termination_by l => (sizeOf l, 0)
decreasing_by
  all_goals simp_wf
  all_goals omega

end

end ValtioPersist

namespace ValtioPersist

open Value

/-! ## Merge strategies (src/merge/deepMerge.ts, src/merge/default.ts) -/

/-- `isSpecialType` from src/merge/deepMerge.ts: an object carrying an own
string `__type` property whose value is one of the known markers. -/
def isSpecialTypeV : Value → Bool
  | vobj fields =>
      match lookupField fields "__type" with
      | some (vstr m) => typeMarkers.contains m
      | _ => false
  | vclass _ fields =>
      match lookupField fields "__type" with
      | some (vstr m) => typeMarkers.contains m
      | _ => false
  | varr _ props =>
      match lookupField props "__type" with
      | some (vstr m) => typeMarkers.contains m
      | _ => false
  | _ => false

mutual

/-- Tree-level model of `structuredClone`: a deep copy.  Functions and
symbols raise `DataCloneError` (`none`); a class instance is cloned as a
plain object of its own enumerable fields (its prototype is lost). -/
def structuredCloneV : Value → Option Value
  | vnull => some vnull
  | vundef => some vundef
  | vbool b => some (vbool b)
  | vnum n => some (vnum n)
  | vstr s => some (vstr s)
  | vsym _ => none
  | vfun _ => none
  | vdate t => some (vdate t)
  | vmap es => do pure (vmap (← clonePairs es))
  | vset es => do pure (vset (← cloneElems es))
  | verr m n st => some (verr m n st)
  | varr el pr => do pure (varr (← cloneElems el) (← cloneFields pr))
  | vobj fs => do pure (vobj (← cloneFields fs))
  | vclass _ fs => do pure (vobj (← cloneFields fs))

def cloneElems : List Value → Option (List Value)
  | [] => some []
  | v :: rest => do pure ((← structuredCloneV v) :: (← cloneElems rest))

def clonePairs : List (Value × Value) → Option (List (Value × Value))
  | [] => some []
  | (k, v) :: rest => do
      pure (((← structuredCloneV k), (← structuredCloneV v)) :: (← clonePairs rest))

def cloneFields : List (String × Value) → Option (List (String × Value))
  | [] => some []
  | (k, v) :: rest => do pure ((k, ← structuredCloneV v) :: (← cloneFields rest))

end

/-- Own enumerable properties contributed by `{ ...v }` spread in an object
literal: object and class-instance fields, array index properties followed by
expandos; dates, maps, sets and errors contribute nothing. -/
def spreadFields : Value → List (String × Value)
  | vobj fields => fields
  | vclass _ fields => fields
  | varr elems props =>
      ((List.range elems.length).zip elems).map (fun p => (Nat.repr p.1, p.2)) ++ props
  | _ => []

mutual

/-- `deepMerge` from src/merge/deepMerge.ts, with a thrown `DataCloneError`
modelled as `none`.  Order of tests follows the source: a non-object source
(including `null`, functions and symbols) is returned as is; a non-object
target makes the source be deep-cloned; a source array is shallow-copied
(`[...source]`, dropping expandos and aliasing elements); a special-type
envelope is deep-cloned; otherwise the result is `{ ...target }` with every
own enumerable source key merged recursively (`for key in source` with a
`hasOwnProperty` guard; date/map/set/error sources have no such keys). -/
def deepMerge (target source : Value) : Option Value :=
  if ¬ isObjType source then some source
  else if ¬ isObjType target then structuredCloneV source
  else
    match source with
    | varr elems _ => some (varr elems [])
    | vobj sfields =>
        if isSpecialTypeV (vobj sfields) then structuredCloneV (vobj sfields)
        else mergeGo target (spreadFields target) sfields
    | vclass cn sfields =>
        if isSpecialTypeV (vclass cn sfields) then structuredCloneV (vclass cn sfields)
        else mergeGo target (spreadFields target) sfields
    | _ => some (vobj (spreadFields target))

def mergeGo (target : Value) (acc : List (String × Value)) :
    List (String × Value) → Option Value
  | [] => some (vobj acc)
  | (k, sv) :: rest => do
      let m ← deepMerge (getProp target k) sv
      mergeGo target (setKey acc k m) rest

end

/-- `DeepMergeStrategy.merge`. -/
def deepMergeStrategy (initialState restoredState : Value) : Option Value :=
  deepMerge initialState restoredState

/-! ## Heap model for the merge strategies' effect claims

Reference sharing and in-place mutation are invisible in a tree embedding,
so the two merge strategies are additionally embedded over an explicit heap:
a cell is an object's (or array's) own enumerable state, an address is an
index into the allocation list, and every construction the source performs
(`{ ... }`, `[...]`, `structuredClone`) allocates a fresh cell at the end of
the heap.  "No mutation of the inputs" is then exactly "the output heap
extends the input heap". -/

inductive HVal where
  | hnull
  | hundef
  | hbool (b : Bool)
  | hnum (n : Int)
  | hstr (s : String)
  | href (a : Nat)
  deriving DecidableEq, Repr

inductive HCell where
  | hobj (fields : List (String × HVal))
  | harr (elems : List HVal)
  deriving DecidableEq, Repr

abbrev Heap := List HCell

open HVal HCell

def lookupFieldH : List (String × HVal) → String → Option HVal
  | [], _ => none
  | (k, v) :: rest, key => if k = key then some v else lookupFieldH rest key

def setKeyH : List (String × HVal) → String → HVal → List (String × HVal)
  | [], key, val => [(key, val)]
  | (k, v) :: rest, key, val =>
      if k = key then (k, val) :: rest else (k, v) :: setKeyH rest key val

/-- `{ ...a, ...b }`: `a`'s keys in order (values overridden by `b` where
present), then `b`'s new keys appended. -/
def spreadPair (fa fb : List (String × HVal)) : List (String × HVal) :=
  fb.foldl (fun acc kv => setKeyH acc kv.1 kv.2) fa

/-- `DefaultMergeStrategy.merge` over the heap:
`{ ...initialState, ...restoredState }` allocates one fresh object cell
whose field values are the very same references held by the inputs.
(The strategy is only ever applied to state objects.) -/
def defaultMergeH (h : Heap) (ia ib : Nat) : Option (Heap × Nat) :=
  match h.get? ia, h.get? ib with
  | some (hobj fa), some (hobj fb) => some (h ++ [hobj (spreadPair fa fb)], h.length)
  | _, _ => none

/-- Property read on a heap cell (own enumerable data properties). -/
def getCellProp : HCell → String → HVal
  | hobj fields, key => (lookupFieldH fields key).getD hundef
  | harr elems, key =>
      match toIndex key with
      | some i =>
          match elems.get? i with
          | some v => v
          | none => hundef
      | none => hundef

def spreadCellFields : HCell → List (String × HVal)
  | hobj fields => fields
  | harr elems =>
      ((List.range elems.length).zip elems).map fun p => (Nat.repr p.1, p.2)

def isSpecialCellH : HCell → Bool
  | hobj fields =>
      match lookupFieldH fields "__type" with
      | some (hstr m) => typeMarkers.contains m
      | _ => false
  | harr _ => false

mutual

/-- `structuredClone` over the heap, with explicit recursion fuel (the
library only clones finite acyclic state, where enough fuel always exists;
preservation of internal sharing by the real algorithm is not needed by any
claim and is not modelled). -/
def structuredCloneH : Nat → Heap → Nat → Option (Heap × HVal)
  | 0, _, _ => none
  | fuel + 1, h, addr =>
      match h.get? addr with
      | none => none
      | some (hobj fields) => do
          let (h', fs) ← cloneFieldsH fuel h fields
          pure (h' ++ [hobj fs], href h'.length)
      | some (harr elems) => do
          let (h', es) ← cloneElemsH fuel h elems
          pure (h' ++ [harr es], href h'.length)
termination_by fuel _ _ => (fuel, 0)
decreasing_by
  all_goals simp_wf
  all_goals omega

/-- Clone one heap value: a reference is deep-cloned, a primitive is kept. -/
def cloneHVal : Nat → Heap → HVal → Option (Heap × HVal)
  | fuel, h, href a => structuredCloneH fuel h a
  | _, h, p => some (h, p)
termination_by fuel _ _ => (fuel, 1)
decreasing_by
  all_goals simp_wf
  all_goals omega

def cloneFieldsH : Nat → Heap → List (String × HVal) →
    Option (Heap × List (String × HVal))
  | _, h, [] => some (h, [])
  | fuel, h, (k, v) :: rest => do
      let (h', v') ← cloneHVal fuel h v
      let (h'', rest') ← cloneFieldsH fuel h' rest
      pure (h'', (k, v') :: rest')
termination_by fuel _ l => (fuel, 2 + sizeOf l)
decreasing_by
  all_goals simp_wf
  all_goals omega

def cloneElemsH : Nat → Heap → List HVal → Option (Heap × List HVal)
  | _, h, [] => some (h, [])
  | fuel, h, v :: rest => do
      let (h', v') ← cloneHVal fuel h v
      let (h'', rest') ← cloneElemsH fuel h' rest
      pure (h'', v' :: rest')
termination_by fuel _ l => (fuel, 2 + sizeOf l)
decreasing_by
  all_goals simp_wf
  all_goals omega

end

mutual

/-- `deepMerge` over the heap (same dispatch as the tree embedding; `fuel`
bounds the nesting depth of the recursion). -/
def deepMergeH : Nat → Heap → HVal → HVal → Option (Heap × HVal)
  | 0, _, _, _ => none
  | fuel + 1, h, target, source =>
      match source with
      | href rs =>
          (match h.get? rs with
           | none => none
           | some scell =>
               match target with
               | href rt =>
                   (match h.get? rt with
                    | none => none
                    | some tcell =>
                        match scell with
                        | harr elems => some (h ++ [harr elems], href h.length)
                        | hobj sfields =>
                            if isSpecialCellH (hobj sfields) then
                              structuredCloneH fuel h rs
                            else do
                              let (h', fs) ← deepMergeFieldsH fuel h tcell
                                (spreadCellFields tcell) sfields
                              pure (h' ++ [hobj fs], href h'.length))
               | _ => structuredCloneH fuel h rs)
      | p => some (h, p)

def deepMergeFieldsH : Nat → Heap → HCell → List (String × HVal) →
    List (String × HVal) → Option (Heap × List (String × HVal))
  | _, h, _, acc, [] => some (h, acc)
  | fuel, h, tcell, acc, (k, sv) :: rest => do
      let (h', m) ← deepMergeH fuel h (getCellProp tcell k) sv
      deepMergeFieldsH fuel h' tcell (setKeyH acc k m) rest

end

/-! ## Persistence orchestrator (src/plugin.ts) -/

/-- The store is modelled by its top-level fields. -/
abbrev Store := List (String × Value)

/-- `updateStore` from src/utils: assign every key of `newState` onto
`store`. -/
def updateStore (store newState : Store) : Store :=
  newState.foldl (fun st kv => setKey st kv.1 kv.2) store

/-- Per-plugin mutable state (`isHydrated`, `boundStore`,
`debouncedPersist`); the debounced handle is abstracted to its existence. -/
structure PluginState where
  isHydrated : Bool
  boundStore : Option Store
  debouncedPersist : Bool

/-- State of a freshly created plugin. -/
def initialPluginState : PluginState :=
  { isHydrated := false, boundStore := none, debouncedPersist := false }

/-- One hydration attempt's external collaborators: the storage read
(`string | null`, or a thrown error), the deserializer and the merge
strategy (results, or a thrown/rejected error). -/
structure HydrateEnv where
  getData : Except String (Option String)
  deserialize : String → Except String Store
  mergeS : Store → Store → Except String Store

/-- The `try` block of `hydrate`: read, then — when the data is truthy
(non-null, non-empty) — deserialize, merge and copy the merged fields onto
the store. -/
def hydrateAttempt (env : HydrateEnv) (store : Store) : Except String Store := do
  let data ← env.getData
  match data with
  | some d =>
      if d = "" then pure store
      else do
        let restored ← env.deserialize d
        let merged ← env.mergeS store restored
        pure (updateStore store merged)
  | none => pure store

/-- `hydrate(store)`: bind the store, run the attempt, and on success or
failure alike mark the plugin hydrated; a failure leaves the store as it
was (the error is only logged). -/
def hydrate (env : HydrateEnv) (st : PluginState) (store : Store) :
    PluginState × Store :=
  match hydrateAttempt env store with
  | .ok store' =>
      ({ st with isHydrated := true, boundStore := some store }, store')
  | .error _ =>
      ({ st with isHydrated := true, boundStore := some store }, store)

/-- Configuration consulted by the change hook. -/
structure ChangeCfg where
  paths : Option (List String)
  shouldPersist : Option (List String → Value → Store → Bool)

/-- `afterChange` from src/plugin.ts: the returned value is the argument
passed to the debounced-persist handle (`some state`), or `none` when the
notification is dropped. -/
def afterChange (cfg : ChangeCfg) (st : PluginState) (path : List String)
    (value : Value) (state : Store) : Option Store :=
  if st.boundStore.isNone || !st.isHydrated || !st.debouncedPersist then none
  else if (match cfg.paths with
           | some ps => !pathMatchesAny path ps
           | none => false) then none
  else if (match cfg.shouldPersist with
           | some f => !f path value state
           | none => false) then none
  else some state

end ValtioPersist

namespace ValtioPersist

open Value

/-! ## Shape testers and auxiliary predicates used by the claims -/

def isStrV : Value → Bool
  | vstr _ => true
  | _ => false

def isArrV : Value → Bool
  | varr _ _ => true
  | _ => false

def hvalRefs : HVal → List Nat
  | HVal.href a => [a]
  | _ => []

/-- The heap addresses a cell holds directly (its nested object references). -/
def cellRefs : HCell → List Nat
  | HCell.hobj fields => fields.foldr (fun kv acc => hvalRefs kv.2 ++ acc) []
  | HCell.harr elems => elems.foldr (fun v acc => hvalRefs v ++ acc) []

/-- The output heap only extends the input heap: every cell that existed
before the call is untouched (this is the heap embedding of "the inputs are
not mutated"). -/
def heapExtends (h h' : Heap) : Prop :=
  ∃ ext, h' = h ++ ext

/-- `__type`-distinctness of a Map key list: no two entries whose keys are
SameValueZero-equal primitives (a live `Map` never holds two such keys). -/
def mapKeysDistinct : List (Value × Value) → Bool
  | [] => true
  | (k, _) :: rest => !mapHasKey rest k && mapKeysDistinct rest

def setElemsDistinct : List Value → Bool
  | [] => true
  | e :: rest => !setHasElem rest e && setElemsDistinct rest

def fieldKeysNodup : List (String × Value) → Bool
  | [] => true
  | (k, _) :: rest => (lookupField rest k).isNone && fieldKeysNodup rest

mutual

/-- The round-trip fragment of claim C1, as amended: values built from
primitives, plain objects, plain arrays (no expando properties), dates,
maps and sets; object key lists and map-key/set-element lists are those a
live JavaScript value can have (no duplicate string keys, no duplicate
primitive collection keys); and no plain object carries an own `__type` key
holding a string — the decoder reserves that shape for envelopes. -/
def okV : Value → Bool
  | vnull => true
  | vundef => true
  | vbool _ => true
  | vnum _ => true
  | vstr _ => true
  | vdate _ => true
  | vmap es => mapKeysDistinct es && okPairs es
  | vset es => setElemsDistinct es && okElems es
  | varr es props => props.isEmpty && okElems es
  | vobj fields =>
      (match lookupField fields "__type" with
       | some (vstr _) => false
       | _ => true) && fieldKeysNodup fields && okFields fields
  | _ => false

def okElems : List Value → Bool
  | [] => true
  | v :: rest => okV v && okElems rest

def okPairs : List (Value × Value) → Bool
  | [] => true
  | (k, v) :: rest => okV k && okV v && okPairs rest

def okFields : List (String × Value) → Bool
  | [] => true
  | (_, v) :: rest => okV v && okFields rest

end

/-- The gating condition of §4.5 / claim C5, read off the spec's words: a
store is bound, hydration completed, the debounce handle exists, the path
passes the allow-list when one is configured, and the predicate approves
when one is configured. -/
def afterChangeSpec (cfg : ChangeCfg) (st : PluginState) (path : List String)
    (value : Value) (state : Store) : Prop :=
  st.boundStore ≠ none ∧ st.isHydrated = true ∧ st.debouncedPersist = true ∧
  (∀ ps, cfg.paths = some ps → pathMatchesAny path ps = true) ∧
  (∀ f, cfg.shouldPersist = some f → f path value state = true)

/-- The three-way match of §4.1 / claim C6, read off the spec's words: an
empty filter matches everything; otherwise the dot-joined change path must
equal a filter path, be a strict descendant of one, or be a strict ancestor
of one. -/
def pathMatchesSpec (changePath : List String) (filterPaths : List String) : Prop :=
  filterPaths = [] ∨
  ∃ f ∈ filterPaths,
    String.intercalate "." changePath = f ∨
    (∃ r, String.intercalate "." changePath = f ++ "." ++ r) ∨
    (∃ r, f = String.intercalate "." changePath ++ "." ++ r)

end ValtioPersist

namespace ValtioPersist

open Value

/-! ## Claim theorems -/

/-- C4: for every execution of `hydrate(store)` — including every way the
storage read, the deserialization or the merge can throw or reject, and
every way they can succeed — `hydrate` completes (it returns a state rather
than propagating the error) and afterwards `isHydrated()` reports `true`;
before any hydration, on the freshly created plugin, `isHydrated()` reports
`false`. -/
theorem hydrate_marks_hydrated_even_on_error :
    initialPluginState.isHydrated = false ∧
    ∀ (env : HydrateEnv) (st : PluginState) (store : Store),
      (hydrate env st store).1.isHydrated = true := by
  refine ⟨rfl, ?_⟩
  intro env st store
  unfold hydrate
  cases hydrateAttempt env store <;> rfl

/-- C10: when the storage read yields `null` or the empty string (both
falsy), `hydrate` leaves every field of the store unchanged and still marks
the plugin hydrated. -/
theorem hydrate_empty_read_preserves_store
    (env : HydrateEnv) (st : PluginState) (store : Store)
    (h : env.getData = .ok none ∨ env.getData = .ok (some "")) :
    (hydrate env st store).1.isHydrated = true ∧
    (hydrate env st store).2 = store := by
  have hatt : hydrateAttempt env store = .ok store := by
    unfold hydrateAttempt
    rcases h with h | h <;> rw [h] <;> rfl
  unfold hydrate
  rw [hatt]
  exact ⟨rfl, rfl⟩

/-- C10 witness: a concrete empty-storage hydration run. -/
theorem hydrate_empty_read_preserves_store_witness :
    (hydrate
      { getData := .ok none, deserialize := fun _ => .ok [],
        mergeS := fun a _ => .ok a }
      initialPluginState [("count", vnum 0)]).1.isHydrated = true ∧
    (hydrate
      { getData := .ok none, deserialize := fun _ => .ok [],
        mergeS := fun a _ => .ok a }
      initialPluginState [("count", vnum 0)]).2 = [("count", vnum 0)] :=
  hydrate_empty_read_preserves_store _ initialPluginState _ (Or.inl rfl)

/-- C5: the debounced-persist handle is invoked, and invoked with the
notification's full state, exactly when a store is bound, hydration has
completed, the handle exists, the changed path passes the configured path
allow-list (when one is configured), and the configured `shouldPersist`
predicate approves (when one is configured); otherwise the notification is
dropped (`afterChange` produces no invocation, so pre-hydration changes
never produce a write). -/
theorem afterChange_invokes_iff_gates_pass
    (cfg : ChangeCfg) (st : PluginState) (path : List String) (value : Value)
    (state out : Store) :
    afterChange cfg st path value state = some out ↔
      (afterChangeSpec cfg st path value state ∧ out = state) := by
  unfold afterChange afterChangeSpec
  rcases st with ⟨hy, bs, dp⟩
  rcases cfg with ⟨cp, csp⟩
  cases bs <;> cases hy <;> cases dp <;>
    cases cp <;> cases csp <;>
      simp [Option.isNone, and_assoc] <;> intros <;>
      exact ⟨fun h => h.symm, fun h => h.symm⟩

end ValtioPersist

namespace ValtioPersist

open Value

theorem listIsPfx_iff (p s : List Char) :
    listIsPfx p s = true ↔ ∃ t, s = p ++ t := by
  induction p generalizing s with
  | nil => simp [listIsPfx]
  | cons a as ih =>
      cases s with
      | nil => simp [listIsPfx]
      | cons b bs =>
          simp only [listIsPfx, Bool.and_eq_true, decide_eq_true_eq, ih,
            List.cons_append, List.cons.injEq]
          constructor
          · rintro ⟨rfl, t, rfl⟩
            exact ⟨t, rfl, rfl⟩
          · rintro ⟨t, rfl, rfl⟩
            exact ⟨rfl, t, rfl⟩

theorem strStartsWith_iff (s pre : String) :
    strStartsWith s pre = true ↔ ∃ r : String, s = pre ++ r := by
  unfold strStartsWith
  rw [listIsPfx_iff]
  constructor
  · rintro ⟨t, ht⟩
    exact ⟨⟨t⟩, String.ext (by simpa using ht)⟩
  · rintro ⟨r, rfl⟩
    exact ⟨r.data, by simp⟩

theorem matchBody_iff (cs f : String) :
    ((if decide (cs = f) || strStartsWith cs (f ++ ".") then true
      else if strStartsWith f (cs ++ ".") then true else false) = true) ↔
    (cs = f ∨ (∃ r, cs = f ++ "." ++ r) ∨ (∃ r, f = cs ++ "." ++ r)) := by
  have collapse : ∀ (b1 b2 : Bool),
      ((if b1 then true else if b2 then true else false) = true) ↔
        (b1 = true ∨ b2 = true) := by
    intro b1 b2
    cases b1 <;> cases b2 <;> simp
  rw [collapse]
  simp only [Bool.or_eq_true, decide_eq_true_eq, strStartsWith_iff]
  constructor
  · rintro (h | ⟨r, hr⟩) 
    · rcases h with h | ⟨r, hr⟩
      · exact Or.inl h
      · exact Or.inr (Or.inl ⟨r, by rw [hr, String.append_assoc]⟩)
    · exact Or.inr (Or.inr ⟨r, by rw [hr, String.append_assoc]⟩)
  · rintro (h | ⟨r, hr⟩ | ⟨r, hr⟩)
    · exact Or.inl (Or.inl h)
    · exact Or.inl (Or.inr ⟨r, by rw [hr, String.append_assoc]⟩)
    · exact Or.inr ⟨r, by rw [hr, String.append_assoc]⟩

/-- C6: `pathMatchesAny` returns true exactly when the filter list is empty,
or the dot-joined change path equals a filter path, is a strict descendant
of one, or is a strict ancestor of one; in particular with filter
`["a.b"]` the changes at `a.b`, `a.b.c` and `a` match while a change at
`x` does not. -/
theorem pathMatchesAny_iff_spec :
    (∀ (changePath filterPaths : List String),
        pathMatchesAny changePath filterPaths = true ↔
          pathMatchesSpec changePath filterPaths) ∧
    pathMatchesAny ["a", "b"] ["a.b"] = true ∧
    pathMatchesAny ["a", "b", "c"] ["a.b"] = true ∧
    pathMatchesAny ["a"] ["a.b"] = true ∧
    pathMatchesAny ["x"] ["a.b"] = false := by
  refine ⟨?_, by rfl, by rfl, by rfl, by rfl⟩
  intro changePath filterPaths
  unfold pathMatchesAny pathMatchesSpec
  rcases filterPaths with _ | ⟨f0, fs⟩
  · simp
  · simp only [List.length_cons, Nat.succ_ne_zero, if_false, List.any_eq_true,
      reduceCtorEq, false_or]
    constructor
    · rintro ⟨f, hf, hbody⟩
      exact ⟨f, hf, (matchBody_iff _ f).1 hbody⟩
    · rintro ⟨f, hf, hdisj⟩
      exact ⟨f, hf, (matchBody_iff _ f).2 hdisj⟩

end ValtioPersist

namespace ValtioPersist

open Value HVal HCell

theorem heapExtends_refl (h : Heap) : heapExtends h h := ⟨[], by simp⟩

theorem heapExtends_trans {h h' h'' : Heap}
    (a : heapExtends h h') (b : heapExtends h' h'') : heapExtends h h'' := by
  obtain ⟨e1, rfl⟩ := a
  obtain ⟨e2, rfl⟩ := b
  exact ⟨e1 ++ e2, by simp⟩

theorem heapExtends_append (h ext : Heap) : heapExtends h (h ++ ext) := ⟨ext, rfl⟩

end ValtioPersist

namespace ValtioPersist

open Value HVal HCell

theorem chvExt (fuel : Nat)
    (hSC : ∀ (h : Heap) (a : Nat) (out : Heap × HVal),
      structuredCloneH fuel h a = some out → heapExtends h out.1) :
    ∀ (h : Heap) (v : HVal) (out : Heap × HVal),
      cloneHVal fuel h v = some out → heapExtends h out.1 := by
  intro h v out hcl
  cases v <;> simp [cloneHVal] at hcl
  case href a => exact hSC h a out hcl
  all_goals rw [← hcl]
  all_goals exact heapExtends_refl h

theorem cfExt (fuel : Nat)
    (hCHV : ∀ (h : Heap) (v : HVal) (out : Heap × HVal),
      cloneHVal fuel h v = some out → heapExtends h out.1) :
    ∀ (fs : List (String × HVal)) (h : Heap) (out : Heap × List (String × HVal)),
      cloneFieldsH fuel h fs = some out → heapExtends h out.1 := by
  intro fs
  induction fs with
  | nil =>
      intro h out hcl
      simp [cloneFieldsH] at hcl
      rw [← hcl]
      exact heapExtends_refl h
  | cons kv rest ih =>
      intro h out hcl
      obtain ⟨k, v⟩ := kv
      rw [cloneFieldsH] at hcl
      cases h1 : cloneHVal fuel h v with
      | none => rw [h1] at hcl; simp at hcl
      | some p =>
          obtain ⟨hp, vp⟩ := p
          rw [h1] at hcl
          simp only [Option.bind_eq_bind, Option.some_bind] at hcl
          cases h2 : cloneFieldsH fuel hp rest with
          | none => rw [h2] at hcl; simp at hcl
          | some q =>
              obtain ⟨hq, fsq⟩ := q
              rw [h2] at hcl
              simp at hcl
              have e1 := hCHV h v (hp, vp) h1
              have e2 := ih hp (hq, fsq) h2
              rw [← hcl]
              exact heapExtends_trans e1 e2

theorem ceExt (fuel : Nat)
    (hCHV : ∀ (h : Heap) (v : HVal) (out : Heap × HVal),
      cloneHVal fuel h v = some out → heapExtends h out.1) :
    ∀ (es : List HVal) (h : Heap) (out : Heap × List HVal),
      cloneElemsH fuel h es = some out → heapExtends h out.1 := by
  intro es
  induction es with
  | nil =>
      intro h out hcl
      simp [cloneElemsH] at hcl
      rw [← hcl]
      exact heapExtends_refl h
  | cons v rest ih =>
      intro h out hcl
      rw [cloneElemsH] at hcl
      cases h1 : cloneHVal fuel h v with
      | none => rw [h1] at hcl; simp at hcl
      | some p =>
          obtain ⟨hp, vp⟩ := p
          rw [h1] at hcl
          simp only [Option.bind_eq_bind, Option.some_bind] at hcl
          cases h2 : cloneElemsH fuel hp rest with
          | none => rw [h2] at hcl; simp at hcl
          | some q =>
              obtain ⟨hq, esq⟩ := q
              rw [h2] at hcl
              simp at hcl
              have e1 := hCHV h v (hp, vp) h1
              have e2 := ih hp (hq, esq) h2
              rw [← hcl]
              exact heapExtends_trans e1 e2

theorem scExt : ∀ (fuel : Nat) (h : Heap) (a : Nat) (out : Heap × HVal),
    structuredCloneH fuel h a = some out → heapExtends h out.1 := by
  intro fuel
  induction fuel with
  | zero =>
      intro h a out hcl
      simp [structuredCloneH] at hcl
  | succ g ih =>
      intro h a out hcl
      rw [structuredCloneH] at hcl
      cases hg : h.get? a with
      | none => rw [hg] at hcl; simp at hcl
      | some cell =>
          rw [hg] at hcl
          cases cell with
          | hobj fields =>
              cases hcf : cloneFieldsH g h fields with
              | none => simp [hcf] at hcl
              | some p =>
                  obtain ⟨hp, fsp⟩ := p
                  simp [hcf] at hcl
                  have e1 := cfExt g (chvExt g ih) fields h (hp, fsp) hcf
                  rw [← hcl]
                  exact heapExtends_trans e1 (heapExtends_append _ _)
          | harr elems =>
              cases hce : cloneElemsH g h elems with
              | none => simp [hce] at hcl
              | some p =>
                  obtain ⟨hp, esp⟩ := p
                  simp [hce] at hcl
                  have e1 := ceExt g (chvExt g ih) elems h (hp, esp) hce
                  rw [← hcl]
                  exact heapExtends_trans e1 (heapExtends_append _ _)

theorem dmfExt (fuel : Nat)
    (hDM : ∀ (h : Heap) (t s : HVal) (out : Heap × HVal),
      deepMergeH fuel h t s = some out → heapExtends h out.1) :
    ∀ (sfs : List (String × HVal)) (h : Heap) (tcell : HCell)
      (acc : List (String × HVal)) (out : Heap × List (String × HVal)),
      deepMergeFieldsH fuel h tcell acc sfs = some out → heapExtends h out.1 := by
  intro sfs
  induction sfs with
  | nil =>
      intro h tcell acc out hcl
      simp [deepMergeFieldsH] at hcl
      rw [← hcl]
      exact heapExtends_refl h
  | cons kv rest ih =>
      intro h tcell acc out hcl
      obtain ⟨k, sv⟩ := kv
      rw [deepMergeFieldsH] at hcl
      cases h1 : deepMergeH fuel h (getCellProp tcell k) sv with
      | none => rw [h1] at hcl; simp at hcl
      | some p =>
          obtain ⟨hp, m⟩ := p
          rw [h1] at hcl
          simp only [Option.bind_eq_bind, Option.some_bind] at hcl
          have e1 := hDM h (getCellProp tcell k) sv (hp, m) h1
          have e2 := ih hp tcell (setKeyH acc k m) out hcl
          exact heapExtends_trans e1 e2

theorem dmExt : ∀ (fuel : Nat) (h : Heap) (t s : HVal) (out : Heap × HVal),
    deepMergeH fuel h t s = some out → heapExtends h out.1 := by
  intro fuel
  induction fuel with
  | zero =>
      intro h t s out hcl
      simp [deepMergeH] at hcl
  | succ g ih =>
      intro h t s out hcl
      cases s with
      | href rs =>
          rw [deepMergeH] at hcl
          cases hg : h[rs]? with
          | none => simp [hg] at hcl
          | some scell =>
              cases t with
              | href rt =>
                  cases ht : h[rt]? with
                  | none => simp [hg, ht] at hcl
                  | some tcell =>
                      cases scell with
                      | harr elems =>
                          simp [hg, ht] at hcl
                          rw [← hcl]
                          exact heapExtends_append _ _
                      | hobj sfields =>
                          by_cases hsp : isSpecialCellH (hobj sfields) = true
                          · simp [hg, ht, hsp] at hcl
                            exact scExt g h rs out hcl
                          · cases hmf : deepMergeFieldsH g h tcell
                                (spreadCellFields tcell) sfields with
                            | none => simp [hg, ht, hsp, hmf] at hcl
                            | some p =>
                                obtain ⟨hp, fsp⟩ := p
                                simp [hg, ht, hsp, hmf] at hcl
                                have e1 := dmfExt g ih sfields h tcell
                                  (spreadCellFields tcell) (hp, fsp) hmf
                                rw [← hcl]
                                exact heapExtends_trans e1 (heapExtends_append _ _)
              | hnull =>
                  simp [hg] at hcl
                  exact scExt g h rs out hcl
              | hundef =>
                  simp [hg] at hcl
                  exact scExt g h rs out hcl
              | hbool b =>
                  simp [hg] at hcl
                  exact scExt g h rs out hcl
              | hnum n =>
                  simp [hg] at hcl
                  exact scExt g h rs out hcl
              | hstr str =>
                  simp [hg] at hcl
                  exact scExt g h rs out hcl
      | hnull =>
          simp [deepMergeH] at hcl
          rw [← hcl]
          exact heapExtends_refl h
      | hundef =>
          simp [deepMergeH] at hcl
          rw [← hcl]
          exact heapExtends_refl h
      | hbool b =>
          simp [deepMergeH] at hcl
          rw [← hcl]
          exact heapExtends_refl h
      | hnum n =>
          simp [deepMergeH] at hcl
          rw [← hcl]
          exact heapExtends_refl h
      | hstr str =>
          simp [deepMergeH] at hcl
          rw [← hcl]
          exact heapExtends_refl h

end ValtioPersist

namespace ValtioPersist

open Value HVal HCell

/-- C2 counterexample: the shallow merge does not deep-clone nested values.
Initial store = cell 1 = `{user: <cell 0>}` with nested object cell 0 =
`{x: 1}`; restored = cell 2 = `{}`.  `DefaultMergeStrategy.merge` allocates
the result cell 3 = `{user: <cell 0>}`: its `user` field holds the very
address 0 that the initial store's nested object lives at, so the returned
result shares a nested object reference with `initial`, contradicting the
claim that nested restored/initial values are deep-cloned before being
returned. -/
theorem shallow_merge_aliases_nested_cex :
    defaultMergeH
      [hobj [("x", hnum 1)], hobj [("user", href 0)], hobj []] 1 2 =
      some ([hobj [("x", hnum 1)], hobj [("user", href 0)], hobj [],
             hobj [("user", href 0)]], 3) ∧
    0 ∈ cellRefs (hobj [("user", href 0)]) := by
  constructor
  · rfl
  · simp [cellRefs, hvalRefs]

/-- C2 as amended: both the shallow merge (`DefaultMergeStrategy.merge`)
and the deep merge (`DeepMergeStrategy.merge`) leave `initial` and
`restored` unmutated — every heap cell that existed before the call is
untouched, the heap is only extended by freshly allocated result cells.
(The claim's further assertion that the result shares no nested object
references with its inputs is dropped: it fails, see the counterexample.) -/
theorem merge_strategies_no_mutation :
    (∀ (h : Heap) (ia ib : Nat) (out : Heap × Nat),
        defaultMergeH h ia ib = some out → heapExtends h out.1) ∧
    (∀ (fuel : Nat) (h : Heap) (t s : HVal) (out : Heap × HVal),
        deepMergeH fuel h t s = some out → heapExtends h out.1) := by
  constructor
  · intro h ia ib out hm
    unfold defaultMergeH at hm
    split at hm
    · simp at hm
      rw [← hm]
      exact heapExtends_append _ _
    · simp at hm
  · exact dmExt

/-- C2 witness: the no-mutation theorem applied to one concrete shallow
merge and one concrete deep merge. -/
theorem merge_strategies_no_mutation_witness :
    heapExtends [hobj [("a", hnum 1)], hobj [("b", hnum 2)]]
      ([hobj [("a", hnum 1)], hobj [("b", hnum 2)],
        hobj [("a", hnum 1), ("b", hnum 2)]]) ∧
    heapExtends [hobj [("a", hnum 1)], hobj []]
      ([hobj [("a", hnum 1)], hobj [], hobj [("a", hnum 1)]]) := by
  constructor
  · exact merge_strategies_no_mutation.1
      [hobj [("a", hnum 1)], hobj [("b", hnum 2)]] 0 1
      ([hobj [("a", hnum 1)], hobj [("b", hnum 2)],
        hobj [("a", hnum 1), ("b", hnum 2)]], 2) (by rfl)
  · exact merge_strategies_no_mutation.2 2
      [hobj [("a", hnum 1)], hobj []] (href 0) (href 1)
      ([hobj [("a", hnum 1)], hobj [], hobj [("a", hnum 1)]], href 2)
      (by simp [deepMergeH, deepMergeFieldsH, spreadCellFields,
           isSpecialCellH, lookupFieldH])

end ValtioPersist

namespace ValtioPersist

open Value

theorem decodeMarked_unknown (m : String) (val : Value)
    (h : typeMarkers.contains m = false) : decodeMarked m val = some val := by
  have hD : m ≠ "__DATE__" := by
    intro he; rw [he] at h; exact absurd h (by decide)
  have hM : m ≠ "__MAP__" := by
    intro he; rw [he] at h; exact absurd h (by decide)
  have hS : m ≠ "__SET__" := by
    intro he; rw [he] at h; exact absurd h (by decide)
  have hSy : m ≠ "__SYMBOL__" := by
    intro he; rw [he] at h; exact absurd h (by decide)
  have hF : m ≠ "__FUNCTION__" := by
    intro he; rw [he] at h; exact absurd h (by decide)
  have hE : m ≠ "__ERROR__" := by
    intro he; rw [he] at h; exact absurd h (by decide)
  have hDo : m ≠ "__DOM_ELEMENT__" := by
    intro he; rw [he] at h; exact absurd h (by decide)
  have hC : m ≠ "__CLASS__" := by
    intro he; rw [he] at h; exact absurd h (by decide)
  rw [decodeMarked.eq_def]
  simp [hD, hM, hS, hSy, hF, hE, hDo, hC]

/-- C7: an envelope whose string `__type` marker is not one of the
recognized markers decodes to its raw `value` field (best-effort
passthrough), not to `null` and without throwing. -/
theorem decode_unknown_marker_passthrough
    (fields : List (String × Value)) (m : String)
    (hk : lookupField fields "__type" = some (vstr m))
    (hm : typeMarkers.contains m = false) :
    processForDeserialization (vobj fields) =
      some (getProp (vobj fields) "value") := by
  rw [processForDeserialization]
  rw [hk]
  exact decodeMarked_unknown m _ hm

/-- C7 witness: an envelope with the unknown marker `"__V2__"` decodes to
its raw `value` field (`7`, in particular not `null`). -/
theorem decode_unknown_marker_passthrough_witness :
    processForDeserialization
        (vobj [("__type", vstr "__V2__"), ("value", vnum 7)]) =
      some (getProp (vobj [("__type", vstr "__V2__"), ("value", vnum 7)])
        "value") ∧
    getProp (vobj [("__type", vstr "__V2__"), ("value", vnum 7)]) "value" =
      vnum 7 :=
  ⟨decode_unknown_marker_passthrough _ "__V2__" rfl (by decide), rfl⟩

/-- C9: an envelope with a recognized marker whose payload has the wrong
shape for that marker — a `Date` envelope whose value is not a string, a
`Map` or `Set` envelope whose value is not an array, an `Error` or `Class`
envelope whose value is not a non-null object — decodes to `null` rather
than throwing or passing the envelope through. -/
theorem decode_malformed_envelope_null
    (fields : List (String × Value)) (m : String)
    (hk : lookupField fields "__type" = some (vstr m))
    (hcase :
      (m = "__DATE__" ∧ isStrV (getProp (vobj fields) "value") = false) ∨
      (m = "__MAP__" ∧ isArrV (getProp (vobj fields) "value") = false) ∨
      (m = "__SET__" ∧ isArrV (getProp (vobj fields) "value") = false) ∨
      (m = "__ERROR__" ∧ isObjType (getProp (vobj fields) "value") = false) ∨
      (m = "__CLASS__" ∧ isObjType (getProp (vobj fields) "value") = false)) :
    processForDeserialization (vobj fields) = some vnull := by
  rw [processForDeserialization]
  rw [hk]
  rcases hcase with ⟨rfl, hv⟩ | ⟨rfl, hv⟩ | ⟨rfl, hv⟩ | ⟨rfl, hv⟩ | ⟨rfl, hv⟩
  · cases hval : getProp (vobj fields) "value" <;> rw [hval] at hv <;>
      simp [decodeMarked, isStrV] at hv ⊢
  · cases hval : getProp (vobj fields) "value" <;> rw [hval] at hv <;>
      simp [decodeMarked, isArrV] at hv ⊢
  · cases hval : getProp (vobj fields) "value" <;> rw [hval] at hv <;>
      simp [decodeMarked, isArrV] at hv ⊢
  · show decodeMarked "__ERROR__" (getProp (vobj fields) "value") = some vnull
    rw [decodeMarked.eq_def]
    simp [hv]
  · show decodeMarked "__CLASS__" (getProp (vobj fields) "value") = some vnull
    rw [decodeMarked.eq_def]
    simp [hv]

/-- C9 witness: a `Date` envelope whose value is the number `3` decodes to
`null`. -/
theorem decode_malformed_envelope_null_witness :
    processForDeserialization
        (vobj [("__type", vstr "__DATE__"), ("value", vnum 3)]) = some vnull :=
  decode_malformed_envelope_null _ "__DATE__" rfl (Or.inl ⟨rfl, rfl⟩)

end ValtioPersist

namespace ValtioPersist

open Value

theorem lookupField_setKey_eq (fs : List (String × Value)) (k : String) (v : Value) :
    lookupField (setKey fs k v) k = some v := by
  induction fs with
  | nil => simp [setKey, lookupField]
  | cons kv rest ih =>
      obtain ⟨k0, v0⟩ := kv
      by_cases h : k0 = k
      · simp [setKey, lookupField, h]
      · simp [setKey, lookupField, h, ih]

theorem lookupField_setKey_ne (fs : List (String × Value)) (k k' : String)
    (v : Value) (h : k ≠ k') :
    lookupField (setKey fs k v) k' = lookupField fs k' := by
  induction fs with
  | nil => simp [setKey, lookupField, h]
  | cons kv rest ih =>
      obtain ⟨k0, v0⟩ := kv
      by_cases h0 : k0 = k
      · subst h0
        simp [setKey, lookupField, h]
      · simp [setKey, lookupField, h0, ih]

theorem mergeGo_shape (sfs : List (String × Value)) (t : Value)
    (acc : List (String × Value)) (r : Value)
    (h : mergeGo t acc sfs = some r) : ∃ out, r = vobj out := by
  induction sfs generalizing acc with
  | nil =>
      simp [mergeGo] at h
      exact ⟨acc, h.symm⟩
  | cons kv rest ih =>
      obtain ⟨k, sv⟩ := kv
      rw [mergeGo] at h
      cases hm : deepMerge (getProp t k) sv with
      | none => rw [hm] at h; simp at h
      | some m =>
          rw [hm] at h
          simp only [Option.bind_eq_bind, Option.some_bind] at h
          exact ih _ h

theorem mergeGo_absent (sfs : List (String × Value)) (t : Value)
    (acc : List (String × Value)) (r : Value) (k : String)
    (h : mergeGo t acc sfs = some r) (hab : lookupField sfs k = none) :
    getProp r k = (lookupField acc k).getD vundef := by
  induction sfs generalizing acc with
  | nil =>
      simp [mergeGo] at h
      rw [← h]
      rfl
  | cons kv rest ih =>
      obtain ⟨k1, sv⟩ := kv
      have hne : k1 ≠ k := by
        intro he
        rw [lookupField, if_pos he] at hab
        cases hab
      have hrest : lookupField rest k = none := by
        rw [lookupField, if_neg hne] at hab
        exact hab
      rw [mergeGo] at h
      cases hm : deepMerge (getProp t k1) sv with
      | none => rw [hm] at h; simp at h
      | some m =>
          rw [hm] at h
          simp only [Option.bind_eq_bind, Option.some_bind] at h
          rw [ih _ h hrest, lookupField_setKey_ne _ _ _ _ hne]

theorem mergeGo_present (sfs : List (String × Value)) (t : Value)
    (acc : List (String × Value)) (r : Value) (k : String) (sv : Value)
    (h : mergeGo t acc sfs = some r) (hnd : fieldKeysNodup sfs = true)
    (hat : lookupField sfs k = some sv) :
    ∃ m, deepMerge (getProp t k) sv = some m ∧ getProp r k = m := by
  induction sfs generalizing acc with
  | nil => simp [lookupField] at hat
  | cons kv rest ih =>
      obtain ⟨k1, sv1⟩ := kv
      rw [mergeGo] at h
      simp only [fieldKeysNodup, Bool.and_eq_true, Option.isNone_iff_eq_none] at hnd
      by_cases he : k1 = k
      · subst he
        rw [lookupField, if_pos rfl] at hat
        cases hat
        cases hm : deepMerge (getProp t k1) sv with
        | none => rw [hm] at h; simp at h
        | some m =>
            rw [hm] at h
            simp only [Option.bind_eq_bind, Option.some_bind] at h
            refine ⟨m, rfl, ?_⟩
            rw [mergeGo_absent rest t _ r k1 h hnd.1, lookupField_setKey_eq]
            rfl
      · rw [lookupField, if_neg he] at hat
        cases hm : deepMerge (getProp t k1) sv1 with
        | none => rw [hm] at h; simp at h
        | some m =>
            rw [hm] at h
            simp only [Option.bind_eq_bind, Option.some_bind] at h
            exact ih _ h hnd.2 hat

theorem deepMerge_array_source (t : Value) (l : List Value)
    (xp : List (String × Value)) (h : isObjType t = true) :
    deepMerge t (varr l xp) = some (varr l []) := by
  rw [deepMerge]
  have h1 : isObjType (varr l xp) = true := rfl
  simp [h1, h]

theorem deepMerge_envelope_source (t : Value) (ef : List (String × Value))
    (hsp : isSpecialTypeV (vobj ef) = true) (h : isObjType t = true) :
    deepMerge t (vobj ef) = structuredCloneV (vobj ef) := by
  rw [deepMerge]
  have h1 : isObjType (vobj ef) = true := rfl
  simp [h1, h, hsp]

end ValtioPersist

namespace ValtioPersist

open Value

/-- C3 counterexample: a restored class instance (here a `Date`) does NOT
replace the initial value wholesale.  With `initial = {k: {a: 1}}` and
`restored = {k: Date(0)}`, the claim demands `{k: Date(0)}`; the code
instead reaches the generic arm (a `Date` is `typeof "object"`, is not an
array and carries no `__type` marker), spreads the initial value and finds
no own enumerable keys on the `Date`, returning `{k: {a: 1}}`. -/
theorem deep_merge_date_not_replaced_cex :
    deepMerge (vobj [("k", vobj [("a", vnum 1)])]) (vobj [("k", vdate 0)]) =
      some (vobj [("k", vobj [("a", vnum 1)])]) ∧
    vobj [("k", vobj [("a", vnum 1)])] ≠ vobj [("k", vdate 0)] := by
  constructor
  · simp [deepMerge, mergeGo, spreadFields, getProp, lookupField, setKey,
      isSpecialTypeV, typeMarkers, isObjType]
  · simp

/-- C3 as amended: for plain-object `initial` and `restored` (the restored
state not itself an envelope, its keys distinct as in any live object):
every key present only in `initial` is preserved untouched; for every key
present in `restored` the result holds `deepMerge(initial[k], restored[k])`
— in particular a plain-object pair recurses, a restored array replaces the
initial value wholesale (as a fresh shallow copy) and a restored
special-type envelope replaces it wholesale (as a deep clone); the result
is always a plain object; and the spec's concrete example
`merge({user:{name:"",age:0}}, {user:{name:"John"}}) =
{user:{name:"John",age:0}}` holds.  (A restored class instance without a
`__type` marker — e.g. a `Date`, `Map` or `Set` — does NOT replace the
initial value: it is object-merged, contributing only its own enumerable
properties, of which a `Date`/`Map`/`Set` has none; see the
counterexample.) -/
theorem deep_merge_per_key
    (tf sf : List (String × Value)) (r : Value)
    (hsp : isSpecialTypeV (vobj sf) = false)
    (hnd : fieldKeysNodup sf = true)
    (h : deepMerge (vobj tf) (vobj sf) = some r) :
    (∃ out, r = vobj out) ∧
    (∀ k, lookupField sf k = none → getProp r k = getProp (vobj tf) k) ∧
    (∀ k sv, lookupField sf k = some sv →
        ∃ m, deepMerge (getProp (vobj tf) k) sv = some m ∧ getProp r k = m) ∧
    (∀ k l xp, lookupField sf k = some (varr l xp) →
        isObjType (getProp (vobj tf) k) = true → getProp r k = varr l []) ∧
    (∀ k ef, lookupField sf k = some (vobj ef) →
        isSpecialTypeV (vobj ef) = true →
        isObjType (getProp (vobj tf) k) = true →
        ∃ c, structuredCloneV (vobj ef) = some c ∧ getProp r k = c) ∧
    deepMergeStrategy
        (vobj [("user", vobj [("name", vstr ""), ("age", vnum 0)])])
        (vobj [("user", vobj [("name", vstr "John")])]) =
      some (vobj [("user", vobj [("name", vstr "John"), ("age", vnum 0)])]) := by
  have hmg : mergeGo (vobj tf) tf sf = some r := by
    rw [deepMerge] at h
    have h1 : isObjType (vobj sf) = true := rfl
    have h2 : isObjType (vobj tf) = true := rfl
    simpa [h1, h2, hsp, spreadFields] using h
  refine ⟨mergeGo_shape sf _ _ _ hmg, ?_, ?_, ?_, ?_, ?_⟩
  · intro k hab
    rw [mergeGo_absent sf _ _ _ k hmg hab]
    rfl
  · intro k sv hat
    exact mergeGo_present sf _ _ _ k sv hmg hnd hat
  · intro k l xp hat hobj
    obtain ⟨m, hdm, hget⟩ := mergeGo_present sf _ _ _ k _ hmg hnd hat
    rw [deepMerge_array_source _ _ _ hobj] at hdm
    cases hdm
    exact hget
  · intro k ef hat hspe hobj
    obtain ⟨m, hdm, hget⟩ := mergeGo_present sf _ _ _ k _ hmg hnd hat
    rw [deepMerge_envelope_source _ _ hspe hobj] at hdm
    exact ⟨m, hdm, hget⟩
  · simp [deepMergeStrategy, deepMerge, mergeGo, spreadFields, getProp,
      lookupField, setKey, isSpecialTypeV, typeMarkers, isObjType]

/-- C3 witness: the per-key theorem applied to the spec's own concrete
deep-merge example. -/
theorem deep_merge_per_key_witness :
    ∃ out,
      vobj [("user", vobj [("name", vstr "John"), ("age", vnum 0)])] =
        vobj out :=
  (deep_merge_per_key
    [("user", vobj [("name", vstr ""), ("age", vnum 0)])]
    [("user", vobj [("name", vstr "John")])]
    (vobj [("user", vobj [("name", vstr "John"), ("age", vnum 0)])])
    rfl rfl
    (by simp [deepMerge, mergeGo, spreadFields, getProp, lookupField, setKey,
      isSpecialTypeV, typeMarkers, isObjType])).1

end ValtioPersist

namespace ValtioPersist

open Value

theorem digit_decode (d : Nat) (hd : d < 10) :
    (Char.ofNat (d + 48)).toNat - 48 = d := by
  interval_cases d <;> decide

theorem digit_ne_dash (d : Nat) (hd : d < 10) : Char.ofNat (d + 48) ≠ '-' := by
  interval_cases d <;> decide

theorem charsToNat_digitChars (n : Nat) : charsToNat (digitChars n) = n := by
  unfold charsToNat digitChars
  rw [List.map_map]
  have hmap : (Nat.digits 10 n).reverse.map
      ((fun c => c.toNat - 48) ∘ fun d => Char.ofNat (d + 48)) =
      (Nat.digits 10 n).reverse.map id := by
    apply List.map_congr_left
    intro d hdmem
    rw [List.mem_reverse] at hdmem
    exact digit_decode d (Nat.digits_lt_base (by norm_num) hdmem)
  rw [hmap, List.map_id, List.reverse_reverse, Nat.ofDigits_digits]

theorem matchDash_non_dash (c : Char) (cs : List Char) (hc : c ≠ '-') :
    (match c :: cs with
     | '-' :: cs2 => -(charsToNat cs2 : Int)
     | cs2 => (charsToNat cs2 : Int)) = (charsToNat (c :: cs) : Int) := by
  split
  · rename_i heq
    rw [List.cons.injEq] at heq
    exact absurd heq.1 hc
  · rfl

theorem digitChars_no_dash (n : Nat) (c : Char) (cs : List Char)
    (hd : digitChars n = c :: cs) : c ≠ '-' := by
  unfold digitChars at hd
  rcases h10 : (Nat.digits 10 n).reverse with _ | ⟨d, ds⟩
  · rw [h10] at hd
    simp at hd
  · rw [h10] at hd
    simp only [List.map_cons, List.cons.injEq] at hd
    have hdmem : d ∈ Nat.digits 10 n := by
      rw [← List.mem_reverse, h10]
      exact List.mem_cons_self d ds
    rw [← hd.1]
    exact digit_ne_dash d (Nat.digits_lt_base (by norm_num) hdmem)

theorem roundDate (t : Int) : dateFromString (dateToISOString t) = t := by
  unfold dateToISOString dateFromString
  by_cases ht : t < 0
  · rw [if_pos ht]
    show -(charsToNat (digitChars t.natAbs) : Int) = t
    rw [charsToNat_digitChars]
    omega
  · rw [if_neg ht]
    rcases hd : digitChars t.natAbs with _ | ⟨c, cs⟩
    · have hdig : Nat.digits 10 t.natAbs = [] := by
        unfold digitChars at hd
        rcases h10 : Nat.digits 10 t.natAbs with _ | _
        · rfl
        · rw [h10] at hd
          simp at hd
      have hz : t.natAbs = 0 := by
        by_contra hnz
        exact absurd hdig (Nat.digits_ne_nil_iff_ne_zero.2 hnz)
      show (charsToNat [] : Int) = t
      simp [charsToNat, Nat.ofDigits]
      omega
    · rw [matchDash_non_dash c cs (digitChars_no_dash t.natAbs c cs hd)]
      rw [← hd, charsToNat_digitChars]
      omega

end ValtioPersist

namespace ValtioPersist

open Value

theorem primKeyEq_symm_false {a b : Value} (h : primKeyEq a b = false) :
    primKeyEq b a = false := by
  cases a <;> cases b <;> first
    | rfl
    | (simp [primKeyEq] at h
       done)
    | (simp only [primKeyEq, decide_eq_false_iff_not] at h ⊢
       exact fun he => h he.symm)

theorem mapHasKey_false_forall {l : List (Value × Value)} {k : Value}
    (h : mapHasKey l k = false) :
    ∀ p ∈ l, primKeyEq p.1 k = false := by
  induction l with
  | nil => intro p hp; cases hp
  | cons q rest ih =>
      obtain ⟨k0, v0⟩ := q
      simp only [mapHasKey, Bool.or_eq_false_iff] at h
      intro p hp
      rw [List.mem_cons] at hp
      rcases hp with rfl | hp
      · exact h.1
      · exact ih h.2 p hp

theorem mapHasKey_append (a b : List (Value × Value)) (k : Value) :
    mapHasKey (a ++ b) k = (mapHasKey a k || mapHasKey b k) := by
  induction a with
  | nil => simp [mapHasKey]
  | cons q rest ih =>
      obtain ⟨k0, v0⟩ := q
      simp [mapHasKey, ih, Bool.or_assoc]

theorem mapSetEntry_absent (acc : List (Value × Value)) (k v : Value)
    (h : mapHasKey acc k = false) : mapSetEntry acc k v = acc ++ [(k, v)] := by
  induction acc with
  | nil => rfl
  | cons q rest ih =>
      obtain ⟨k0, v0⟩ := q
      simp only [mapHasKey, Bool.or_eq_false_iff] at h
      simp [mapSetEntry, h.1, ih h.2]

theorem mkMap_go (es : List (Value × Value)) :
    ∀ acc, (∀ p ∈ es, mapHasKey acc p.1 = false) →
    mapKeysDistinct es = true →
    es.foldl (fun acc kv => mapSetEntry acc kv.1 kv.2) acc = acc ++ es := by
  induction es with
  | nil => intro acc _ _; simp
  | cons q rest ih =>
      obtain ⟨k, v⟩ := q
      intro acc hacc hdist
      simp only [mapKeysDistinct, Bool.and_eq_true, Bool.not_eq_true'] at hdist
      have h1 : mapHasKey acc k = false := hacc (k, v) (List.mem_cons_self _ _)
      simp only [List.foldl_cons, mapSetEntry_absent acc k v h1]
      rw [ih (acc ++ [(k, v)]) ?_ hdist.2]
      · simp
      · intro p hp
        rw [mapHasKey_append, Bool.or_eq_false_iff]
        refine ⟨hacc p (List.mem_cons_of_mem _ hp), ?_⟩
        simp only [mapHasKey, Bool.or_eq_false_iff]
        refine ⟨?_, trivial⟩
        exact primKeyEq_symm_false (mapHasKey_false_forall hdist.1 p hp)

theorem mkMap_distinct (es : List (Value × Value))
    (h : mapKeysDistinct es = true) : mkMap es = es := by
  unfold mkMap
  rw [mkMap_go es [] (fun p _ => rfl) h]
  simp

theorem setHasElem_false_forall {l : List Value} {x : Value}
    (h : setHasElem l x = false) : ∀ e ∈ l, primKeyEq e x = false := by
  induction l with
  | nil => intro e he; cases he
  | cons a rest ih =>
      simp only [setHasElem, Bool.or_eq_false_iff] at h
      intro e he
      rw [List.mem_cons] at he
      rcases he with rfl | he
      · exact h.1
      · exact ih h.2 e he

theorem setHasElem_append (a b : List Value) (x : Value) :
    setHasElem (a ++ b) x = (setHasElem a x || setHasElem b x) := by
  induction a with
  | nil => simp [setHasElem]
  | cons e rest ih => simp [setHasElem, ih, Bool.or_assoc]

theorem mkSet_go (es : List Value) :
    ∀ acc, (∀ e ∈ es, setHasElem acc e = false) →
    setElemsDistinct es = true →
    es.foldl (fun acc e => if setHasElem acc e then acc else acc ++ [e]) acc =
      acc ++ es := by
  induction es with
  | nil => intro acc _ _; simp
  | cons x rest ih =>
      intro acc hacc hdist
      simp only [setElemsDistinct, Bool.and_eq_true, Bool.not_eq_true'] at hdist
      have h1 : setHasElem acc x = false := hacc x (List.mem_cons_self _ _)
      simp only [List.foldl_cons, h1, if_false, Bool.false_eq_true]
      rw [ih (acc ++ [x]) ?_ hdist.2]
      · simp
      · intro e he
        rw [setHasElem_append, Bool.or_eq_false_iff]
        refine ⟨hacc e (List.mem_cons_of_mem _ he), ?_⟩
        simp only [setHasElem, Bool.or_eq_false_iff]
        refine ⟨?_, trivial⟩
        exact primKeyEq_symm_false (setHasElem_false_forall hdist.1 e he)

theorem mkSet_distinct (es : List Value) (h : setElemsDistinct es = true) :
    mkSet es = es := by
  unfold mkSet
  rw [mkSet_go es [] (fun e _ => rfl) h]
  simp

theorem okElems_mem {es : List Value} (h : okElems es = true) :
    ∀ y ∈ es, okV y = true := by
  induction es with
  | nil => intro y hy; cases hy
  | cons v rest ih =>
      rw [okElems, Bool.and_eq_true] at h
      intro y hy
      rw [List.mem_cons] at hy
      rcases hy with rfl | hy
      · exact h.1
      · exact ih h.2 y hy

theorem okPairs_mem {es : List (Value × Value)} (h : okPairs es = true) :
    ∀ p ∈ es, okV p.1 = true ∧ okV p.2 = true := by
  induction es with
  | nil => intro p hp; cases hp
  | cons q rest ih =>
      obtain ⟨k, v⟩ := q
      rw [okPairs, Bool.and_eq_true, Bool.and_eq_true] at h
      intro p hp
      rw [List.mem_cons] at hp
      rcases hp with rfl | hp
      · exact ⟨h.1.1, h.1.2⟩
      · exact ih h.2 p hp

theorem okFields_mem {fs : List (String × Value)} (h : okFields fs = true) :
    ∀ p ∈ fs, okV p.2 = true := by
  induction fs with
  | nil => intro p hp; cases hp
  | cons q rest ih =>
      obtain ⟨k, v⟩ := q
      rw [okFields, Bool.and_eq_true] at h
      intro p hp
      rw [List.mem_cons] at hp
      rcases hp with rfl | hp
      · exact h.1
      · exact ih h.2 p hp

end ValtioPersist

namespace ValtioPersist

open Value

theorem roundElemsL (es : List Value)
    (hp : ∀ y ∈ es,
      processForDeserialization (processForSerialization y) = some y) :
    deserializeElems (serializeElems es) = some es := by
  induction es with
  | nil => simp [serializeElems, deserializeElems]
  | cons v rest ih =>
      rw [serializeElems, deserializeElems,
        hp v (List.mem_cons_self _ _),
        ih (fun y hy => hp y (List.mem_cons_of_mem _ hy))]
      rfl

theorem roundPairsL (es : List (Value × Value))
    (hp : ∀ p ∈ es,
      processForDeserialization (processForSerialization p.1) = some p.1 ∧
      processForDeserialization (processForSerialization p.2) = some p.2) :
    deserializeMapElems (serializeEntries es) = some es := by
  induction es with
  | nil => simp [serializeEntries, deserializeMapElems]
  | cons q rest ih =>
      obtain ⟨k, v⟩ := q
      have hq := hp (k, v) (List.mem_cons_self _ _)
      rw [serializeEntries, deserializeMapElems]
      show (do
        let k' ← processForDeserialization
          (List.getD [processForSerialization k, processForSerialization v] 0 vundef)
        let v' ← processForDeserialization
          (List.getD [processForSerialization k, processForSerialization v] 1 vundef)
        pure ((k', v') :: (← deserializeMapElems (serializeEntries rest)))) =
        some ((k, v) :: rest)
      rw [show List.getD [processForSerialization k, processForSerialization v]
            0 vundef = processForSerialization k from rfl,
          show List.getD [processForSerialization k, processForSerialization v]
            1 vundef = processForSerialization v from rfl,
          hq.1, hq.2,
          ih (fun p hpm => hp p (List.mem_cons_of_mem _ hpm))]
      rfl

theorem roundFieldsL (fs : List (String × Value))
    (hp : ∀ p ∈ fs,
      processForDeserialization (processForSerialization p.2) = some p.2) :
    deserializeFields (serializeFields fs) = some fs := by
  induction fs with
  | nil => simp [serializeFields, deserializeFields]
  | cons q rest ih =>
      obtain ⟨k, v⟩ := q
      rw [serializeFields, deserializeFields,
        hp (k, v) (List.mem_cons_self _ _),
        ih (fun p hpm => hp p (List.mem_cons_of_mem _ hpm))]
      rfl

theorem lookupField_serializeFields (fs : List (String × Value)) (k : String) :
    lookupField (serializeFields fs) k =
      (lookupField fs k).map processForSerialization := by
  induction fs with
  | nil => simp [serializeFields, lookupField]
  | cons q rest ih =>
      obtain ⟨k0, v0⟩ := q
      by_cases h : k0 = k
      · simp [serializeFields, lookupField, h]
      · simp [serializeFields, lookupField, h, ih]

theorem enc_not_vstr (v : Value) (hv : ∀ s, v ≠ vstr s) (s : String) :
    processForSerialization v ≠ vstr s := by
  cases v <;> intro hc <;> simp [processForSerialization] at hc
  exact hv _ rfl

theorem decode_vobj_keywise (fs : List (String × Value))
    (h : ∀ s, lookupField fs "__type" ≠ some (vstr s)) :
    processForDeserialization (vobj fs) =
      (do pure (vobj (← deserializeFields fs))) := by
  rw [processForDeserialization]
  rcases hl : lookupField fs "__type" with _ | v
  · rfl
  · cases v
    case vstr s => exact absurd hl (h s)
    all_goals rfl

end ValtioPersist

namespace ValtioPersist

open Value

theorem roundAux : ∀ (n : Nat) (x : Value), sizeOf x ≤ n → okV x = true →
    processForDeserialization (processForSerialization x) = some x := by
  intro n
  induction n with
  | zero =>
      intro x hx _
      exfalso
      cases x <;> simp at hx <;> omega
  | succ n ih =>
      intro x hx hok
      cases x with
      | vnull => simp [processForSerialization, processForDeserialization]
      | vundef => simp [processForSerialization, processForDeserialization]
      | vbool b => simp [processForSerialization, processForDeserialization]
      | vnum m => simp [processForSerialization, processForDeserialization]
      | vstr s => simp [processForSerialization, processForDeserialization]
      | vsym d => simp [okV] at hok
      | vfun name => simp [okV] at hok
      | verr m nm st => simp [okV] at hok
      | vclass cn fs => simp [okV] at hok
      | vdate t =>
          rw [processForSerialization]
          rw [processForDeserialization]
          show decodeMarked "__DATE__"
            (getProp (vobj [("__type", vstr "__DATE__"),
              ("value", vstr (dateToISOString t))]) "value") = some (vdate t)
          show decodeMarked "__DATE__" (vstr (dateToISOString t)) = some (vdate t)
          rw [decodeMarked]
          rw [roundDate]
      | vmap es =>
          rw [okV, Bool.and_eq_true] at hok
          simp only [Value.vmap.sizeOf_spec] at hx
          have hps : ∀ p ∈ es,
              processForDeserialization (processForSerialization p.1) = some p.1 ∧
              processForDeserialization (processForSerialization p.2) = some p.2 := by
            intro p hpm
            have hsz := List.sizeOf_lt_of_mem hpm
            obtain ⟨a, b⟩ := p
            simp only [Prod.mk.sizeOf_spec] at hsz
            have hokp := okPairs_mem hok.2 (a, b) hpm
            exact ⟨ih a (by omega) hokp.1, ih b (by omega) hokp.2⟩
          have h1 := roundPairsL es hps
          have h2 := mkMap_distinct es hok.1
          rw [processForSerialization]
          rw [processForDeserialization]
          show decodeMarked "__MAP__" (varr (serializeEntries es) []) =
            some (vmap es)
          rw [decodeMarked]
          rw [h1]
          show some (vmap (mkMap es)) = some (vmap es)
          rw [h2]
      | vset es =>
          rw [okV, Bool.and_eq_true] at hok
          simp only [Value.vset.sizeOf_spec] at hx
          have hes : ∀ y ∈ es,
              processForDeserialization (processForSerialization y) = some y := by
            intro y hy
            have hsz := List.sizeOf_lt_of_mem hy
            exact ih y (by omega) (okElems_mem hok.2 y hy)
          have h1 := roundElemsL es hes
          have h2 := mkSet_distinct es hok.1
          rw [processForSerialization]
          rw [processForDeserialization]
          show decodeMarked "__SET__" (varr (serializeElems es) []) =
            some (vset es)
          rw [decodeMarked]
          rw [h1]
          show some (vset (mkSet es)) = some (vset es)
          rw [h2]
      | varr es props =>
          rw [okV, Bool.and_eq_true] at hok
          have hprops : props = [] := by
            have := hok.1
            cases props
            · rfl
            · simp [List.isEmpty] at this
          subst hprops
          simp only [Value.varr.sizeOf_spec] at hx
          have hes : ∀ y ∈ es,
              processForDeserialization (processForSerialization y) = some y := by
            intro y hy
            have hsz := List.sizeOf_lt_of_mem hy
            exact ih y (by omega) (okElems_mem hok.2 y hy)
          have h1 := roundElemsL es hes
          rw [processForSerialization]
          rw [processForDeserialization]
          show (do pure (varr (← deserializeElems (serializeElems es)) [])) =
            some (varr es [])
          rw [h1]
          rfl
      | vobj fields =>
          rw [okV, Bool.and_eq_true, Bool.and_eq_true] at hok
          obtain ⟨⟨hty, hnd⟩, hofl⟩ := hok
          simp only [Value.vobj.sizeOf_spec] at hx
          have hfs : ∀ p ∈ fields,
              processForDeserialization (processForSerialization p.2) = some p.2 := by
            intro p hpm
            have hsz := List.sizeOf_lt_of_mem hpm
            obtain ⟨a, b⟩ := p
            simp only [Prod.mk.sizeOf_spec] at hsz
            exact ih b (by omega) (okFields_mem hofl (a, b) hpm)
          have h1 := roundFieldsL fields hfs
          have hne : ∀ s,
              lookupField (serializeFields fields) "__type" ≠ some (vstr s) := by
            intro s
            rw [lookupField_serializeFields]
            rcases hl : lookupField fields "__type" with _ | v
            · simp
            · rw [hl] at hty
              cases v <;> simp at hty ⊢ <;>
                first
                  | (intro hc
                     exact enc_not_vstr _ (by intro s2 he; cases he) s hc)
                  | skip
          rw [processForSerialization]
          rw [decode_vobj_keywise _ hne]
          rw [h1]
          rfl

end ValtioPersist

namespace ValtioPersist

open Value

/-- C1 counterexample: a plain object whose own keys include a string-valued
`__type` key is not round-tripped.  `{__type: "z"}` encodes to itself, but
the decoder sees the string `__type` key, treats the object as an envelope,
hits the unknown-marker arm and returns the (absent) `value` field, i.e.
`undefined` — not the original object. -/
theorem codec_roundtrip_type_key_cex :
    processForDeserialization (processForSerialization
      (vobj [("__type", vstr "z")])) = some vundef ∧
    vundef ≠ vobj [("__type", vstr "z")] := by
  constructor
  · rw [processForSerialization]
    rw [show serializeFields [("__type", vstr "z")] = [("__type", vstr "z")]
      from by simp [serializeFields, processForSerialization]]
    rw [processForDeserialization]
    show decodeMarked "z" (getProp (vobj [("__type", vstr "z")]) "value") =
      some vundef
    show decodeMarked "z" vundef = some vundef
    exact decodeMarked_unknown "z" vundef (by decide)
  · simp

/-- C1 as amended: for every value composed only of primitives, plain
objects, arrays, dates, keyed-pair collections and unique-element
collections — where, as in any live JavaScript value, object keys are
distinct and no two collection keys/elements are SameValueZero-equal
primitives — and in which no plain object carries an own `__type` key
holding a string (such objects collide with the envelope shape and are not
faithfully decoded, see the counterexample),
`processForDeserialization(processForSerialization(x))` succeeds and
returns a value structurally equal (hence deeply equal) to `x`. -/
theorem codec_roundtrip (x : Value) (hok : okV x = true) :
    processForDeserialization (processForSerialization x) = some x :=
  roundAux (sizeOf x) x (Nat.le_refl _) hok

/-- C1 witness: a concrete state mixing primitives, a date, a map (with a
primitive and an object key), a set, an array and nested plain objects
round-trips. -/
theorem codec_roundtrip_witness :
    processForDeserialization (processForSerialization
      (vobj [("n", vnum 3), ("s", vstr "a"), ("u", vundef), ("z", vnull),
             ("d", vdate 99),
             ("m", vmap [(vstr "k", vnum 1), (vobj [], vnum 2)]),
             ("t", vset [vnum 1, vstr "x"]),
             ("l", varr [vnum 1, vobj [("q", vnum 2)]] [])])) =
      some (vobj [("n", vnum 3), ("s", vstr "a"), ("u", vundef), ("z", vnull),
             ("d", vdate 99),
             ("m", vmap [(vstr "k", vnum 1), (vobj [], vnum 2)]),
             ("t", vset [vnum 1, vstr "x"]),
             ("l", varr [vnum 1, vobj [("q", vnum 2)]] [])]) :=
  codec_roundtrip _ (by
    simp [okV, okFields, okPairs, okElems, mapKeysDistinct, setElemsDistinct,
      fieldKeysNodup, lookupField, mapHasKey, setHasElem, primKeyEq,
      List.isEmpty])

end ValtioPersist

namespace ValtioPersist

open Value

/-! ## Machinery for the `pickPaths` idempotence claim

`pickPaths` consults its source only through `getByPath` at the given
paths and builds the result with `setByPath`, each write touching only the
top-level key at the head of its path.  The development below decomposes a
fold of such writes per top-level key (`tailsAt`, `nodeFold`), proves that
reading a picked path out of the picked tree gives the value read from the
source (`pickReads_eq`), and derives idempotence: the second pass performs
literally the same writes. -/

/-- One `pickPaths` step over an already-split path. -/
def rootStep (src res : Value) (t : List String) : Value :=
  let v := getByPath src t
  if isUndef v then res else setByPath res t v

def rootFold (src res : Value) : List (List String) → Value
  | [] => res
  | t :: ts => rootFold src (rootStep src res t) ts

/-- Evolution of the child value stored under one fixed key of the
accumulated object, driven by the tails of the paths that address this key:
an empty tail writes the node's own source value wholesale, a non-empty
tail writes through `setByPath` after the parent's walk coerced a
non-object child to `{}`. -/
def nodeStep (b c : Value) (t : List String) : Value :=
  match t with
  | [] => if isUndef b then c else b
  | _ :: _ =>
      let v := getByPath b t
      if isUndef v then c
      else setByPath (if isObjType c then c else vobj []) t v

def nodeFold (b c : Value) : List (List String) → Value
  | [] => c
  | t :: ts => nodeFold b (nodeStep b c t) ts

/-- The tails of the paths whose head is `k`. -/
def tailsAt (k : String) : List (List String) → List (List String)
  | [] => []
  | t :: ts =>
      match t with
      | k' :: rest => if k' = k then rest :: tailsAt k ts else tailsAt k ts
      | [] => tailsAt k ts

/-- Total number of segments (plus one per path), the measure for the
per-key recursion. -/
def pathsMu : List (List String) → Nat
  | [] => 0
  | t :: ts => t.length + 1 + pathsMu ts

theorem getByPath_vundef (t : List String) : getByPath vundef t = vundef := by
  cases t <;> rfl

theorem getByPath_vnull (t : List String) : getByPath vnull t = vundef ∨ t = [] := by
  cases t
  · exact Or.inr rfl
  · exact Or.inl rfl

theorem getByPath_single (b : Value) (k : String) :
    getByPath b [k] = getProp b k := by
  cases b <;> simp [getByPath] <;> rfl

theorem getByPath_cons (c : Value) (k : String) (rest : List String) :
    getByPath c (k :: rest) = getByPath (getProp c k) rest := by
  cases c <;> simp [getByPath] <;>
    exact (getByPath_vundef rest).symm

theorem deadRead (c : Value) (rest : List String) (hne : rest ≠ [])
    (hno : isObjType c = false) : getByPath c rest = vundef := by
  cases rest with
  | nil => exact absurd rfl hne
  | cons k r =>
      rw [getByPath_cons]
      cases c <;> simp [isObjType] at hno ⊢ <;>
        first
          | exact getByPath_vundef r
          | rfl

end ValtioPersist

namespace ValtioPersist

open Value

theorem isUndef_iff (v : Value) : isUndef v = true ↔ v = vundef := by
  cases v <;> simp [isUndef]

/-- Values that can carry own enumerable data properties in the state model. -/
def isContainer : Value → Bool
  | vobj _ => true
  | varr _ _ => true
  | vclass _ _ => true
  | _ => false

theorem getProp_of_not_container (b : Value) (k : String)
    (h : isContainer b = false) : getProp b k = vundef := by
  cases b <;> first | rfl | simp [isContainer] at h

theorem getByPath_nonempty_not_container (b : Value) (t : List String)
    (hne : t ≠ []) (h : isContainer b = false) : getByPath b t = vundef := by
  cases t with
  | nil => exact absurd rfl hne
  | cons k rest =>
      rw [getByPath_cons, getProp_of_not_container b k h]
      exact getByPath_vundef rest

theorem setKey_self (fs : List (String × Value)) (k : String) (w : Value)
    (h : lookupField fs k = some w) : setKey fs k w = fs := by
  induction fs with
  | nil => simp [lookupField] at h
  | cons kv rest ih =>
      obtain ⟨k0, v0⟩ := kv
      by_cases h0 : k0 = k
      · subst h0
        simp [lookupField] at h
        simp [setKey, h]
      · simp [lookupField, h0] at h
        simp [setKey, h0, ih h]

theorem list_set_getD_self (l : List Value) (i : Nat) (h : i < l.length) :
    l.set i (List.getD l i vundef) = l := by
  induction l generalizing i with
  | nil => simp at h
  | cons a tl ih =>
      cases i with
      | zero => rfl
      | succ j =>
          show a :: tl.set j (List.getD tl j vundef) = a :: tl
          rw [ih j (Nat.lt_of_succ_lt_succ h)]

theorem setProp_self (c : Value) (k : String)
    (h : isUndef (getProp c k) = false) : setProp c k (getProp c k) = c := by
  cases c with
  | vobj fields =>
      show vobj (setKey fields k ((lookupField fields k).getD vundef)) = vobj fields
      cases hl : lookupField fields k with
      | none =>
          rw [show getProp (vobj fields) k = (lookupField fields k).getD vundef
                from rfl, hl] at h
          simp [isUndef] at h
      | some w =>
          cases hw : isUndef w with
          | true =>
              rw [isUndef_iff] at hw
              rw [show getProp (vobj fields) k = (lookupField fields k).getD vundef
                    from rfl, hl, hw] at h
              simp [isUndef] at h
          | false =>
              exact congrArg vobj (setKey_self fields k w hl)
  | varr elems props =>
      show setProp (varr elems props) k (getProp (varr elems props) k) =
        varr elems props
      cases hti : toIndex k with
      | none =>
          have hg : getProp (varr elems props) k =
              (lookupField props k).getD vundef := by
            show (match toIndex k with
              | some i => List.getD elems i vundef
              | none => (lookupField props k).getD vundef) =
              (lookupField props k).getD vundef
            rw [hti]
          rw [hg] at h ⊢
          show (match toIndex k with
            | some i =>
                if i < elems.length then
                  varr (elems.set i ((lookupField props k).getD vundef)) props
                else varr (elems ++
                  List.replicate (i - elems.length) vundef ++
                    [(lookupField props k).getD vundef]) props
            | none =>
                varr elems (setKey props k ((lookupField props k).getD vundef))) =
            varr elems props
          rw [hti]
          cases hl : lookupField props k with
          | none => rw [hl] at h; simp [isUndef] at h
          | some w =>
              cases hw : isUndef w with
              | true =>
                  rw [isUndef_iff] at hw
                  rw [hl, hw] at h
                  simp [isUndef] at h
              | false =>
                  exact congrArg (fun fs => varr elems fs)
                    (setKey_self props k w hl)
      | some i =>
          have hg : getProp (varr elems props) k = List.getD elems i vundef := by
            show (match toIndex k with
              | some i => List.getD elems i vundef
              | none => (lookupField props k).getD vundef) = _
            rw [hti]
          rw [hg] at h ⊢
          show (match toIndex k with
            | some j =>
                if j < elems.length then
                  varr (elems.set j (List.getD elems i vundef)) props
                else varr (elems ++ List.replicate (j - elems.length) vundef ++
                  [List.getD elems i vundef]) props
            | none =>
                varr elems (setKey props k (List.getD elems i vundef))) =
            varr elems props
          rw [hti]
          by_cases hlt : i < elems.length
          · show (if i < elems.length then
                varr (elems.set i (List.getD elems i vundef)) props
              else varr (elems ++ List.replicate (i - elems.length) vundef ++
                [List.getD elems i vundef]) props) = varr elems props
            rw [if_pos hlt, list_set_getD_self elems i hlt]
          · rw [List.getD_eq_default elems vundef (Nat.le_of_not_lt hlt)] at h
            simp [isUndef] at h
            done
  | vclass cname fields => rfl
  | vnull => rfl
  | vundef => rfl
  | vbool b => rfl
  | vnum n => rfl
  | vstr s => rfl
  | vsym d => rfl
  | vfun n => rfl
  | vdate t => rfl
  | vmap es => rfl
  | vset es => rfl
  | verr a b c => rfl

end ValtioPersist

namespace ValtioPersist

open Value

theorem isContainer_false_of_not_obj (v : Value) (h : isObjType v = false) :
    isContainer v = false := by
  cases v <;> first | rfl | simp [isObjType] at h

theorem isUndef_false_of_obj (v : Value) (h : isObjType v = true) :
    isUndef v = false := by
  cases v <;> first | rfl | simp [isObjType] at h

/-- Write-back: storing at a path the very value read there leaves the tree
unchanged, provided the read was defined. -/
theorem setByPath_self : ∀ (t : List String) (c : Value), t ≠ [] →
    isUndef (getByPath c t) = false → setByPath c t (getByPath c t) = c := by
  intro t
  induction t with
  | nil => intro c hne _; exact absurd rfl hne
  | cons k rest ih =>
      intro c _ h
      cases rest with
      | nil =>
          rw [getByPath_single] at h ⊢
          show setProp c k (getProp c k) = c
          exact setProp_self c k h
      | cons r rs =>
          rw [getByPath_cons] at h ⊢
          have hobj : isObjType (getProp c k) = true := by
            cases hob : isObjType (getProp c k) with
            | true => rfl
            | false =>
                rw [getByPath_nonempty_not_container (getProp c k) (r :: rs)
                  (by simp) (isContainer_false_of_not_obj _ hob)] at h
                simp [isUndef] at h
          show setProp c k
              (setByPath (if isObjType (getProp c k) then getProp c k else vobj [])
                (r :: rs) (getByPath (getProp c k) (r :: rs))) = c
          rw [hobj]
          show setProp c k
              (setByPath (getProp c k) (r :: rs) (getByPath (getProp c k) (r :: rs))) = c
          rw [ih (getProp c k) (by simp) h]
          exact setProp_self c k (isUndef_false_of_obj _ hobj)

theorem nodeStep_self (b : Value) (t : List String) : nodeStep b b t = b := by
  cases t with
  | nil => simp [nodeStep]
  | cons k rest =>
      show (if isUndef (getByPath b (k :: rest)) then b
        else setByPath (if isObjType b then b else vobj []) (k :: rest)
          (getByPath b (k :: rest))) = b
      cases hv : isUndef (getByPath b (k :: rest)) with
      | true => simp
      | false =>
          simp only [Bool.false_eq_true, if_false]
          cases hob : isObjType b with
          | true =>
              rw [if_pos rfl]
              exact setByPath_self (k :: rest) b (by simp) hv
          | false =>
              rw [getByPath_nonempty_not_container b (k :: rest) (by simp)
                (isContainer_false_of_not_obj _ hob)] at hv
              simp [isUndef] at hv

theorem nodeFold_self (b : Value) : ∀ ts : List (List String),
    nodeFold b b ts = b := by
  intro ts
  induction ts with
  | nil => rfl
  | cons t ts ih =>
      show nodeFold b (nodeStep b b t) ts = b
      rw [nodeStep_self]
      exact ih

theorem nodeStep_oracle_undef (c : Value) (t : List String) :
    nodeStep vundef c t = c := by
  cases t with
  | nil => rfl
  | cons k rest =>
      simp [nodeStep, getByPath_vundef, isUndef]

theorem nodeFold_oracle_undef (c : Value) : ∀ ts,
    nodeFold vundef c ts = c := by
  intro ts
  induction ts generalizing c with
  | nil => rfl
  | cons t ts ih =>
      show nodeFold vundef (nodeStep vundef c t) ts = c
      rw [nodeStep_oracle_undef]
      exact ih c

theorem nodeStep_skip (b c : Value) (t : List String) (hne : t ≠ [])
    (hv : isUndef (getByPath b t) = true) : nodeStep b c t = c := by
  cases t with
  | nil => exact absurd rfl hne
  | cons k rest =>
      simp [nodeStep, hv]

theorem nodeFold_not_container (b c : Value) (hb : isContainer b = false) :
    ∀ ts, (∀ t ∈ ts, t ≠ []) → nodeFold b c ts = c := by
  intro ts
  induction ts generalizing c with
  | nil => intro _; rfl
  | cons t ts ih =>
      intro hts
      show nodeFold b (nodeStep b c t) ts = c
      rw [nodeStep_skip b c t (hts t (List.mem_cons_self t ts))
        (by rw [getByPath_nonempty_not_container b t
              (hts t (List.mem_cons_self t ts)) hb]; rfl)]
      exact ih c fun t' ht' => hts t' (List.mem_cons_of_mem t ht')

end ValtioPersist

namespace ValtioPersist

open Value

theorem mem_tailsAt (k : String) : ∀ (ts : List (List String)) (rest : List String),
    (k :: rest) ∈ ts → rest ∈ tailsAt k ts := by
  intro ts
  induction ts with
  | nil => intro rest h; simp at h
  | cons t ts ih =>
      intro rest h
      rw [List.mem_cons] at h
      cases h with
      | inl h =>
          rw [← h]
          show rest ∈ tailsAt k ((k :: rest) :: ts)
          simp [tailsAt]
      | inr h =>
          cases t with
          | nil => exact ih rest h
          | cons k' r =>
              show rest ∈ (if k' = k then r :: tailsAt k ts else tailsAt k ts)
              by_cases hk : k' = k
              · rw [if_pos hk]
                exact List.mem_cons_of_mem r (ih rest h)
              · rw [if_neg hk]
                exact ih rest h

theorem pathsMu_tailsAt_le (k : String) : ∀ ts : List (List String),
    pathsMu (tailsAt k ts) ≤ pathsMu ts := by
  intro ts
  induction ts with
  | nil => exact Nat.le_refl 0
  | cons t ts ih =>
      cases t with
      | nil =>
          show pathsMu (tailsAt k ts) ≤ 0 + 1 + pathsMu ts
          omega
      | cons k' r =>
          show pathsMu (if k' = k then r :: tailsAt k ts else tailsAt k ts) ≤
            (k' :: r).length + 1 + pathsMu ts
          by_cases hk : k' = k
          · rw [if_pos hk]
            show r.length + 1 + pathsMu (tailsAt k ts) ≤ (k' :: r).length + 1 + pathsMu ts
            simp only [List.length_cons]
            omega
          · rw [if_neg hk]
            simp only [List.length_cons]
            omega

theorem pathsMu_tailsAt_lt (k : String) (ts : List (List String)) (hne : ts ≠ []) :
    pathsMu (tailsAt k ts) < pathsMu ts := by
  cases ts with
  | nil => exact absurd rfl hne
  | cons t ts =>
      have hle := pathsMu_tailsAt_le k ts
      cases t with
      | nil =>
          show pathsMu (tailsAt k ts) < 0 + 1 + pathsMu ts
          omega
      | cons k' r =>
          show pathsMu (if k' = k then r :: tailsAt k ts else tailsAt k ts) <
            (k' :: r).length + 1 + pathsMu ts
          by_cases hk : k' = k
          · rw [if_pos hk]
            show r.length + 1 + pathsMu (tailsAt k ts) < (k' :: r).length + 1 + pathsMu ts
            simp only [List.length_cons]
            omega
          · rw [if_neg hk]
            simp only [List.length_cons]
            omega

theorem setByPath_vobj (f : List (String × Value)) (t : List String)
    (v : Value) (hne : t ≠ []) :
    ∃ f', setByPath (vobj f) t v = vobj f' := by
  cases t with
  | nil => exact absurd rfl hne
  | cons k rest =>
      cases rest with
      | nil => exact ⟨setKey f k v, rfl⟩
      | cons r rs =>
          refine ⟨setKey f k (setByPath
            (if isObjType (getProp (vobj f) k) then getProp (vobj f) k else vobj [])
            (r :: rs) v), ?_⟩
          rfl

theorem getProp_coerce (c : Value) (hc : c = vundef ∨ ∃ f, c = vobj f)
    (k : String) :
    getProp (if isObjType c then c else vobj []) k = getProp c k := by
  cases hc with
  | inl h => rw [h]; rfl
  | inr h => obtain ⟨f, rfl⟩ := h; rfl

end ValtioPersist

namespace ValtioPersist

open Value

theorem getByPath_nil (v : Value) : getByPath v [] = v := by
  cases v <;> rfl

theorem coerce_vobj (c : Value) (hc : c = vundef ∨ ∃ f, c = vobj f) :
    ∃ f0, (if isObjType c then c else vobj []) = vobj f0 := by
  cases hc with
  | inl h => rw [h]; exact ⟨[], rfl⟩
  | inr h => obtain ⟨f, rfl⟩ := h; exact ⟨f, rfl⟩

/-- Effect of one `nodeStep` on the value stored under a fixed top-level
key `k` of the accumulator: a step on a path headed by `k` acts as the
corresponding child-level step on the tail; any other step leaves the
child untouched. -/
theorem getProp_nodeStep (b c : Value) (hc : c = vundef ∨ ∃ f, c = vobj f)
    (k k' : String) (rest : List String) :
    getProp (nodeStep b c (k' :: rest)) k =
      if k' = k then nodeStep (getProp b k) (getProp c k) rest
      else getProp c k := by
  obtain ⟨f0, hf0⟩ := coerce_vobj c hc
  have hcoerce : getProp (vobj f0) k = getProp c k := by
    rw [← hf0]; exact getProp_coerce c hc k
  have hread : getByPath b (k' :: rest) = getByPath (getProp b k') rest :=
    getByPath_cons b k' rest
  show getProp
      (if isUndef (getByPath b (k' :: rest)) then c
       else setByPath (if isObjType c then c else vobj []) (k' :: rest)
         (getByPath b (k' :: rest))) k = _
  cases hv : isUndef (getByPath b (k' :: rest)) with
  | true =>
      rw [if_pos rfl]
      by_cases hk : k' = k
      · subst hk
        rw [if_pos rfl]
        rw [hread] at hv
        cases rest with
        | nil =>
            show getProp c k' = if isUndef (getProp b k') then getProp c k'
              else getProp b k'
            rw [getByPath_nil] at hv
            rw [hv]
            simp
        | cons r rs =>
            exact (nodeStep_skip (getProp b k') (getProp c k') (r :: rs)
              (by simp) hv).symm
      · rw [if_neg hk]
  | false =>
      rw [if_neg (by simp)]
      rw [hf0]
      cases rest with
      | nil =>
          show getProp (setProp (vobj f0) k' (getByPath b [k'])) k = _
          rw [getByPath_single]
          show ((lookupField (setKey f0 k' (getProp b k')) k).getD vundef) = _
          by_cases hk : k' = k
          · subst hk
            rw [if_pos rfl, lookupField_setKey_eq]
            show getProp b k' = if isUndef (getProp b k') then getProp c k'
              else getProp b k'
            rw [getByPath_single] at hv
            rw [hv]
            simp
          · rw [if_neg hk, lookupField_setKey_ne f0 k' k _ hk]
            exact hcoerce
      | cons r rs =>
          show getProp (setProp (vobj f0) k'
            (setByPath
              (if isObjType (getProp (vobj f0) k') then getProp (vobj f0) k'
               else vobj [])
              (r :: rs) (getByPath b (k' :: r :: rs)))) k = _
          show ((lookupField (setKey f0 k'
            (setByPath
              (if isObjType (getProp (vobj f0) k') then getProp (vobj f0) k'
               else vobj [])
              (r :: rs) (getByPath b (k' :: r :: rs)))) k).getD vundef) = _
          by_cases hk : k' = k
          · subst hk
            rw [if_pos rfl, lookupField_setKey_eq]
            show setByPath
              (if isObjType (getProp (vobj f0) k') then getProp (vobj f0) k'
               else vobj [])
              (r :: rs) (getByPath b (k' :: r :: rs)) =
              nodeStep (getProp b k') (getProp c k') (r :: rs)
            rw [hread] at hv ⊢
            rw [hcoerce]
            show _ = if isUndef (getByPath (getProp b k') (r :: rs)) then getProp c k'
              else setByPath
                (if isObjType (getProp c k') then getProp c k' else vobj [])
                (r :: rs) (getByPath (getProp b k') (r :: rs))
            rw [hv]
            simp only [Bool.false_eq_true, if_false]
          · rw [if_neg hk, lookupField_setKey_ne f0 k' k _ hk]
            exact hcoerce

end ValtioPersist

namespace ValtioPersist

open Value

theorem nodeStep_inv (b c : Value) (hc : c = vundef ∨ ∃ f, c = vobj f)
    (t : List String) (hne : t ≠ []) :
    nodeStep b c t = vundef ∨ ∃ f, nodeStep b c t = vobj f := by
  cases t with
  | nil => exact absurd rfl hne
  | cons k rest =>
      have he : nodeStep b c (k :: rest) =
          (if isUndef (getByPath b (k :: rest)) then c
           else setByPath (if isObjType c then c else vobj []) (k :: rest)
             (getByPath b (k :: rest))) := rfl
      rw [he]
      cases hv : isUndef (getByPath b (k :: rest)) with
      | true => rw [if_pos rfl]; exact hc
      | false =>
          rw [if_neg (by simp)]
          obtain ⟨f0, hf0⟩ := coerce_vobj c hc
          rw [hf0]
          obtain ⟨f', hf'⟩ := setByPath_vobj f0 (k :: rest)
            (getByPath b (k :: rest)) (by simp)
          exact Or.inr ⟨f', hf'⟩

/-- Per-key decomposition of a fold of node steps: the child under `k` of
the accumulated value evolves by the child-level fold over the tails of the
`k`-headed paths. -/
theorem getProp_nodeFold (k : String) : ∀ (ts : List (List String)) (b c : Value),
    (∀ t ∈ ts, t ≠ []) → (c = vundef ∨ ∃ f, c = vobj f) →
    getProp (nodeFold b c ts) k =
      nodeFold (getProp b k) (getProp c k) (tailsAt k ts) := by
  intro ts
  induction ts with
  | nil => intro b c _ _; rfl
  | cons t ts ih =>
      intro b c hts hc
      have htne : t ≠ [] := hts t (List.mem_cons_self t ts)
      have hts' : ∀ t' ∈ ts, t' ≠ [] := fun t' ht' =>
        hts t' (List.mem_cons_of_mem t ht')
      cases t with
      | nil => exact absurd rfl htne
      | cons k' rest =>
          have hinv' := nodeStep_inv b c hc (k' :: rest) (by simp)
          have hstep := getProp_nodeStep b c hc k k' rest
          show getProp (nodeFold b (nodeStep b c (k' :: rest)) ts) k = _
          rw [ih b (nodeStep b c (k' :: rest)) hts' hinv', hstep]
          by_cases hk : k' = k
          · rw [if_pos hk]
            show _ = nodeFold (getProp b k) (getProp c k)
              (tailsAt k ((k' :: rest) :: ts))
            have : tailsAt k ((k' :: rest) :: ts) = rest :: tailsAt k ts := by
              show (if k' = k then rest :: tailsAt k ts else tailsAt k ts) = _
              rw [if_pos hk]
            rw [this]
            rfl
          · rw [if_neg hk]
            have : tailsAt k ((k' :: rest) :: ts) = tailsAt k ts := by
              show (if k' = k then rest :: tailsAt k ts else tailsAt k ts) = _
              rw [if_neg hk]
            rw [this]

end ValtioPersist

namespace ValtioPersist

open Value

theorem nodeFold_append (b c : Value) : ∀ (l1 l2 : List (List String)),
    nodeFold b c (l1 ++ l2) = nodeFold b (nodeFold b c l1) l2 := by
  intro l1
  induction l1 generalizing c with
  | nil => intro l2; rfl
  | cons t l1 ih => intro l2; exact ih (nodeStep b c t) l2

/-- Reading back any of the folded paths out of the accumulated node gives
exactly the source's value at that path. -/
theorem nodeFold_reads : ∀ (n : Nat) (ts : List (List String)) (b : Value),
    pathsMu ts ≤ n → ∀ t ∈ ts,
      getByPath (nodeFold b vundef ts) t = getByPath b t := by
  intro n
  induction n with
  | zero =>
      intro ts b hmu t ht
      cases ts with
      | nil => simp at ht
      | cons t0 ts =>
          have hmu' : t0.length + 1 + pathsMu ts ≤ 0 := hmu
          omega
  | succ m ih =>
      intro ts b hmu t ht
      cases hbu : isUndef b with
      | true =>
          rw [isUndef_iff] at hbu
          subst hbu
          rw [nodeFold_oracle_undef]
      | false =>
          by_cases hnil : ([] : List String) ∈ ts
          · obtain ⟨ts1, ts2, rfl⟩ := List.append_of_mem hnil
            rw [nodeFold_append]
            show getByPath (nodeFold b (nodeStep b (nodeFold b vundef ts1) []) ts2) t = _
            show getByPath (nodeFold b
              (if isUndef b then nodeFold b vundef ts1 else b) ts2) t = _
            rw [hbu]
            simp only [Bool.false_eq_true, if_false]
            rw [nodeFold_self]
          · have hts' : ∀ t' ∈ ts, t' ≠ [] := by
              intro t' ht' he
              exact hnil (he ▸ ht')
            cases hcont : isContainer b with
            | false =>
                rw [nodeFold_not_container b vundef hcont ts hts']
                rw [getByPath_vundef,
                  getByPath_nonempty_not_container b t (hts' t ht) hcont]
            | true =>
                cases t with
                | nil => exact absurd rfl (hts' [] ht)
                | cons k rest =>
                    rw [getByPath_cons, getByPath_cons]
                    rw [getProp_nodeFold k ts b vundef hts' (Or.inl rfl)]
                    rw [show getProp vundef k = vundef from rfl]
                    have hlt := pathsMu_tailsAt_lt k ts (List.ne_nil_of_mem ht)
                    exact ih (tailsAt k ts) (getProp b k)
                      (by omega) rest (mem_tailsAt k ts rest ht)

end ValtioPersist

namespace ValtioPersist

open Value

theorem rootStep_nil (s R : Value) : rootStep s R [] = R := by
  show (if isUndef (getByPath s []) then R else setByPath R [] (getByPath s [])) = R
  cases isUndef (getByPath s []) with
  | true => rfl
  | false => rfl

theorem pickStep_eq_rootStep (s R : Value) (p : String) :
    pickStep s R p = rootStep s R (p.splitOn ".") := rfl

theorem rootFold_filter (s : Value) : ∀ (ts : List (List String)) (R : Value),
    rootFold s R ts = rootFold s R (ts.filter fun t => !t.isEmpty) := by
  intro ts
  induction ts with
  | nil => intro R; rfl
  | cons t ts ih =>
      intro R
      cases t with
      | nil =>
          show rootFold s (rootStep s R []) ts = _
          rw [rootStep_nil]
          exact ih R
      | cons k rest =>
          show rootFold s (rootStep s R (k :: rest)) ts =
            rootFold s R (((k :: rest) :: ts).filter fun t => !t.isEmpty)
          rw [show ((k :: rest) :: ts).filter (fun t => !t.isEmpty) =
            (k :: rest) :: ts.filter (fun t => !t.isEmpty) from rfl]
          exact ih (rootStep s R (k :: rest))

theorem rootStep_eq_nodeStep (s : Value) (f : List (String × Value))
    (k : String) (rest : List String) :
    rootStep s (vobj f) (k :: rest) = nodeStep s (vobj f) (k :: rest) := by
  show (if isUndef (getByPath s (k :: rest)) then vobj f
      else setByPath (vobj f) (k :: rest) (getByPath s (k :: rest))) =
    (if isUndef (getByPath s (k :: rest)) then vobj f
      else setByPath (if isObjType (vobj f) then vobj f else vobj []) (k :: rest)
        (getByPath s (k :: rest)))
  rfl

theorem rootFold_eq_nodeFold (s : Value) : ∀ (ts : List (List String)),
    (∀ t ∈ ts, t ≠ []) → ∀ (f : List (String × Value)),
    rootFold s (vobj f) ts = nodeFold s (vobj f) ts := by
  intro ts
  induction ts with
  | nil => intro _ f; rfl
  | cons t ts ih =>
      intro hts f
      cases t with
      | nil => exact absurd rfl (hts [] (List.mem_cons_self [] ts))
      | cons k rest =>
          have hts' : ∀ t' ∈ ts, t' ≠ [] := fun t' ht' =>
            hts t' (List.mem_cons_of_mem _ ht')
          show rootFold s (rootStep s (vobj f) (k :: rest)) ts =
            nodeFold s (nodeStep s (vobj f) (k :: rest)) ts
          rw [rootStep_eq_nodeStep]
          have hstep : ∃ f', nodeStep s (vobj f) (k :: rest) = vobj f' := by
            have he : nodeStep s (vobj f) (k :: rest) =
                (if isUndef (getByPath s (k :: rest)) then vobj f
                 else setByPath (if isObjType (vobj f) then vobj f else vobj [])
                   (k :: rest) (getByPath s (k :: rest))) := rfl
            rw [he, show (if isObjType (vobj f) then vobj f else vobj []) =
              vobj f from rfl]
            cases isUndef (getByPath s (k :: rest)) with
            | true => exact ⟨f, rfl⟩
            | false =>
                simp only [Bool.false_eq_true, if_false]
                exact setByPath_vobj f (k :: rest) _ (by simp)
          obtain ⟨f', hf'⟩ := hstep
          rw [hf']
          exact ih hts' f'

end ValtioPersist

namespace ValtioPersist

open Value

theorem tailsAt_filter (k : String) : ∀ ts : List (List String),
    tailsAt k (ts.filter fun t => !t.isEmpty) = tailsAt k ts := by
  intro ts
  induction ts with
  | nil => rfl
  | cons t ts ih =>
      cases t with
      | nil =>
          show tailsAt k (ts.filter fun t => !t.isEmpty) = tailsAt k ts
          exact ih
      | cons k' rest =>
          show tailsAt k ((k' :: rest) :: ts.filter fun t => !t.isEmpty) =
            tailsAt k ((k' :: rest) :: ts)
          show (if k' = k then rest :: tailsAt k (ts.filter fun t => !t.isEmpty)
              else tailsAt k (ts.filter fun t => !t.isEmpty)) =
            (if k' = k then rest :: tailsAt k ts else tailsAt k ts)
          rw [ih]

theorem getProp_rootFold (s : Value) (f : List (String × Value))
    (ts : List (List String)) (k : String) :
    getProp (rootFold s (vobj f) ts) k =
      nodeFold (getProp s k) (getProp (vobj f) k) (tailsAt k ts) := by
  rw [rootFold_filter]
  have hts : ∀ t ∈ ts.filter (fun t => !t.isEmpty), t ≠ [] := by
    intro t ht he
    subst he
    have := List.of_mem_filter ht
    simp at this
  rw [rootFold_eq_nodeFold s _ hts f]
  rw [getProp_nodeFold k _ s (vobj f) hts (Or.inr ⟨f, rfl⟩)]
  rw [tailsAt_filter]

theorem pickPaths_eq_rootFold (s : Value) : ∀ (P : List String) (R : Value),
    P.foldl (pickStep s) R = rootFold s R (P.map fun p => p.splitOn ".") := by
  intro P
  induction P with
  | nil => intro R; rfl
  | cons p P ih =>
      intro R
      show P.foldl (pickStep s) (pickStep s R p) = _
      rw [ih (pickStep s R p), pickStep_eq_rootStep]
      rfl

/-- Reading back a picked path out of the picked object returns the
source's value at that path. -/
theorem pickPaths_reads (s : Value) (P : List String) (p : String)
    (hp : p ∈ P) (k : String) (rest : List String)
    (hsp : p.splitOn "." = k :: rest) :
    getByPath (pickPaths s P) (k :: rest) = getByPath s (k :: rest) := by
  show getByPath (P.foldl (pickStep s) (vobj [])) (k :: rest) = _
  rw [pickPaths_eq_rootFold]
  rw [getByPath_cons, getByPath_cons (c := s)]
  rw [getProp_rootFold]
  rw [show getProp (vobj []) k = vundef from rfl]
  have hmem : (k :: rest) ∈ P.map (fun p => p.splitOn ".") :=
    hsp ▸ List.mem_map_of_mem (fun p => p.splitOn ".") hp
  exact nodeFold_reads (pathsMu (tailsAt k (P.map fun p => p.splitOn ".")))
    (tailsAt k (P.map fun p => p.splitOn ".")) (getProp s k)
    (Nat.le_refl _) rest (mem_tailsAt k _ rest hmem)

theorem pickStep_nilSplit (x acc : Value) (p : String)
    (hsp : p.splitOn "." = []) : pickStep x acc p = acc := by
  rw [pickStep_eq_rootStep, hsp, rootStep_nil]

end ValtioPersist

namespace ValtioPersist

open Value

theorem rootStep_read_congr (x y acc : Value) (t : List String)
    (h : getByPath x t = getByPath y t) :
    rootStep x acc t = rootStep y acc t := by
  show (if isUndef (getByPath x t) then acc else setByPath acc t (getByPath x t)) =
    (if isUndef (getByPath y t) then acc else setByPath acc t (getByPath y t))
  rw [h]

theorem foldl_pickStep_ext (x y : Value) : ∀ (Q : List String) (acc : Value),
    (∀ p ∈ Q, ∀ a, pickStep x a p = pickStep y a p) →
    Q.foldl (pickStep x) acc = Q.foldl (pickStep y) acc := by
  intro Q
  induction Q with
  | nil => intro acc _; rfl
  | cons p Q ih =>
      intro acc h
      show Q.foldl (pickStep x) (pickStep x acc p) = _
      rw [h p (List.mem_cons_self p Q) acc]
      exact ih (pickStep y acc p) fun p' hp' a =>
        h p' (List.mem_cons_of_mem p hp') a

/-- C8.  `pickPaths` is idempotent: projecting an already projected object
through the same dotted paths reproduces it, even up to structural
equality (which subsumes the claimed deep equality).  The proof shows that
every path of `P` reads the same value out of `pickPaths s P` as out of
`s`, so the second pass performs exactly the same writes as the first. -/
theorem pickPaths_idempotent (s : Value) (P : List String) :
    pickPaths (pickPaths s P) P = pickPaths s P := by
  show P.foldl (pickStep (pickPaths s P)) (vobj []) = pickPaths s P
  have hsteps : ∀ p ∈ P, ∀ a, pickStep (pickPaths s P) a p = pickStep s a p := by
    intro p hp a
    cases hsp : p.splitOn "." with
    | nil => rw [pickStep_nilSplit _ a p hsp, pickStep_nilSplit s a p hsp]
    | cons k rest =>
        rw [pickStep_eq_rootStep, pickStep_eq_rootStep, hsp]
        exact rootStep_read_congr _ s a (k :: rest)
          (pickPaths_reads s P p hp k rest hsp)
  rw [foldl_pickStep_ext (pickPaths s P) s P (vobj []) hsteps]
  rfl

end ValtioPersist
